import Mathlib

/-!
# go_mininest: nested sampling engine and the lighthouse example

A shallow embedding of `src/mininest/mininest.go` and
`examples/lighthouse/lighthouse.go`.

Modelling conventions.

* `float64` is idealised as a linearly ordered field `F` with a floor function;
  the functions `math.Exp` and `math.Log` are a parameter `M : MathFns F`.
  Theorems that depend on what `exp` and `log` compute are stated over `ℝ` with
  `realMath`. Rounding, overflow, infinities and NaN are not modelled there. Two
  effects of `float64` are modelled where a property turns on them: the underflow of
  `math.Exp` (`underflowMath`) and the rounding of a result (`round64`, `tryU64`).
* The global random source of `math/rand` is an explicit value `Rand F`: the
  infinite sequence of numbers that `rand.Float64()` is going to return, and
  the number of them already consumed.
* A value of the interface type `Object` is a pointer to the object's state, as
  are the values `*Object` of the lighthouse example. The memory is a map `heap`
  from addresses to states, and `next` is the first address never allocated.
* The unbounded redraw loop of `Sampling` and the receive loop of `GetArray` run
  on fuel. A channel is the sequence of what the successive receives find.
-/

set_option autoImplicit false

namespace Mininest

/-! ## The `math` and `math/rand` packages -/

/-- The functions of package `math` that the program calls on `float64`. -/
structure MathFns (F : Type) where
  Exp : F → F
  Log : F → F

/-- Interpretation of `math.Exp` and `math.Log` over the real numbers. -/
noncomputable def realMath : MathFns ℝ := ⟨Real.exp, Real.log⟩

/-- Interpretation of `math.Exp` and `math.Log` over the real numbers in which `math.Exp`
underflows: an argument below `-745.14` gives `0`, as `math.Exp` does for every argument
below the constant `Underflow = -745.133...` of package `math`. -/
noncomputable def underflowMath : MathFns ℝ :=
  ⟨fun x => if x < -745.14 then 0 else Real.exp x, Real.log⟩

/-- The constant `math.MaxFloat64`, that is `2^1023 * (2 - 2^(-52))`. -/
def MaxFloat64 {F : Type} [LinearOrderedField F] : F := 2 ^ 1024 - 2 ^ 971

/-- The random source: the values `rand.Float64()` returns, and how many were consumed. -/
structure Rand (F : Type) where
  draws : ℕ → F
  pos : ℕ

/-- The call `rand.Float64()`: the next value and the advanced source. -/
def Rand.Float64 {F : Type} (r : Rand F) : F × Rand F :=
  (r.draws r.pos, { r with pos := r.pos + 1 })

/-- Conversion `int(x)` of a `float64`: truncation toward zero. -/
def goInt {F : Type} [LinearOrderedField F] [FloorRing F] (x : F) : ℤ :=
  if 0 ≤ x then ⌊x⌋ else ⌈x⌉

/-- Rounding of an exact result to `float64`: to the nearest number with 53 significant
bits, ties to the one with an even last bit. The exponent range of `float64` (overflow,
subnormal numbers) is left out. -/
def round64 (x : ℚ) : ℚ :=
  if x = 0 then 0
  else
    let e : ℤ := Int.log 2 |x|
    let ulp : ℚ := 2 ^ (e - 52)
    let q : ℚ := |x| / ulp
    let n : ℤ :=
      if q - ⌊q⌋ < 1 / 2 then ⌊q⌋
      else if 1 / 2 < q - ⌊q⌋ then ⌊q⌋ + 1
      else if ⌊q⌋ % 2 = 0 then ⌊q⌋ else ⌊q⌋ + 1
    if x < 0 then -((n : ℚ) * ulp) else (n : ℚ) * ulp

/-! ## `mininest.go` -/

section plus
variable {F : Type} [LinearOrderedField F]

/-- The function `plus` of `mininest.go`: logarithmic addition. -/
def plus (M : MathFns F) (x y : F) : F :=
  if x > y then
    x + M.Log (1 + M.Exp (y - x))
  else
    y + M.Log (1 + M.Exp (x - y))

end plus

/-- The interface `Object`, as the methods of an implementation whose state has type `α`.
A method receives the state its receiver points to. `Explore` returns the new state of the
receiver and the advanced random source, `LogL` reads the state, and `Copy` returns the
state stored in the object it allocates. -/
structure Object (F α : Type) where
  Explore : F → α → Rand F → α × Rand F
  LogL : α → F
  Copy : α → α

/-- An address in memory: the value held by a slot of `[]Object`. -/
abbrev Ptr := ℕ

/-- The struct `Result`; `Sample` is the address of the copied object. -/
structure Result (F : Type) where
  H : F
  LogZ : F
  LogWt : F
  Sample : Ptr

/-- Ways an execution stops without a result. -/
inductive Fault where
  | indexOutOfRange
  | outOfFuel
  | capOutOfRange
  | blocked
  deriving DecidableEq, Repr

/-- The variables of `Sampling` that live across iterations, with the memory and the
random source. -/
structure State (F α : Type) where
  H : F
  logZ : F
  logwidth : F
  Obj : List Ptr
  heap : Ptr → α
  next : Ptr
  rng : Rand F

/-- Indexing `Obj[i]` of a slice with an `int`; out of range is a run-time panic. -/
def sliceGet (Obj : List Ptr) (i : ℤ) : Except Fault Ptr :=
  if 0 ≤ i then
    match Obj[i.toNat]? with
    | some p => .ok p
    | none => .error .indexOutOfRange
  else .error .indexOutOfRange

/-- Assignment `Obj[i] = p` to a slot of a slice; out of range is a run-time panic. -/
def sliceSet (Obj : List Ptr) (i : ℕ) (p : Ptr) : Except Fault (List Ptr) :=
  if i < Obj.length then .ok (Obj.set i p) else .error .indexOutOfRange

section engine
variable {F α : Type} [LinearOrderedField F]

/-- The body of `for i, o := range(Obj)` in `Sampling` (lines 40-44), run over the
remaining pairs `(i, o)` with the current value of `worst`. `Obj[worst]` is in range
whenever the body runs. -/
def worstLoop (O : Object F α) (heap : Ptr → α) (Obj : List Ptr) : List (ℕ × Ptr) → ℕ → ℕ
  | [], worst => worst
  | (i, o) :: rest, worst =>
    if O.LogL (heap o) < O.LogL (heap (Obj.getD worst 0)) then
      worstLoop O heap Obj rest i
    else
      worstLoop O heap Obj rest worst

/-- Lines 39-44 of `Sampling`: the index `worst` after the scan. -/
def findWorst (O : Object F α) (heap : Ptr → α) (Obj : List Ptr) : ℕ :=
  worstLoop O heap Obj Obj.enum 0

/-- The value `Obj[i].LogL()` read through the memory `heap`. -/
def logLAt (O : Object F α) (heap : Ptr → α) (Obj : List Ptr) (i : ℕ) : F :=
  O.LogL (heap (Obj.getD i 0))

/-- The index `w` is the first index of a minimum of `LogL` among the indices below `k`. -/
def FirstMinBelow (O : Object F α) (heap : Ptr → α) (Obj : List Ptr) (k w : ℕ) : Prop :=
  (∀ i, i < k → ¬ logLAt O heap Obj i < logLAt O heap Obj w) ∧
  (∀ i, i < w → logLAt O heap Obj w < logLAt O heap Obj i)

variable [FloorRing F]

/-- The expression `int(float64(n)*rand.Float64()) % n` at the drawn value `r`. -/
def aCopyOf (n : ℕ) (r : F) : ℤ :=
  Int.tmod (goInt ((n : F) * r)) (n : ℤ)

/-- The inner `for` of `Sampling` (lines 57-64) up to the `break`: draws until the index
`aCopy` differs from `worst`, and returns it with the advanced random source. -/
def drawSurvivor (n worst : ℕ) : ℕ → Rand F → Except Fault (ℤ × Rand F)
  | 0, _ => .error .outOfFuel
  | fuel + 1, rng =>
    let aCopy := aCopyOf n rng.Float64.1
    if aCopy ≠ (worst : ℤ) then
      .ok (aCopy, rng.Float64.2)
    else
      drawSurvivor n worst fuel rng.Float64.2

/-- Lines 56-65 of `Sampling`: when `n > 1`, `Obj[worst] = Obj[aCopy]` for the drawn
index; the slice and the random source afterwards. -/
def replaceWorst (n worst fuel : ℕ) (Obj : List Ptr) (rng : Rand F) :
    Except Fault (List Ptr × Rand F) :=
  if n > 1 then
    match drawSurvivor n worst fuel rng with
    | .ok (aCopy, rng1) =>
      match sliceGet Obj aCopy with
      | .ok p =>
        match sliceSet Obj worst p with
        | .ok Obj1 => .ok (Obj1, rng1)
        | .error e => .error e
      | .error e => .error e
    | .error e => .error e
  else
    .ok (Obj, rng)

/-- One pass through the outer `for` of `Sampling` (lines 38-71): the state at the next
pass and the `Result` sent on `cOut`. -/
def iteration (M : MathFns F) (O : Object F α) (n fuel : ℕ) (s : State F α) :
    Except Fault (State F α × Result F) :=
  let worst := findWorst O s.heap s.Obj
  match sliceGet s.Obj worst with
  | .error e => .error e
  | .ok w =>
    let logWt := s.logwidth + O.LogL (s.heap w)
    let logZnew := plus M s.logZ logWt
    let H := M.Exp (logWt - logZnew) * O.LogL (s.heap w)
      + M.Exp (s.logZ - logZnew) * (s.H + s.logZ) - logZnew
    let sample := s.next
    let heap1 := Function.update s.heap sample (O.Copy (s.heap w))
    let logLstar := O.LogL (heap1 w)
    match replaceWorst n worst fuel s.Obj s.rng with
    | .error e => .error e
    | .ok (Obj1, rng1) =>
      match sliceGet Obj1 worst with
      | .error e => .error e
      | .ok p =>
        let ex := O.Explore logLstar (heap1 p) rng1
        .ok ({ H := H, logZ := logZnew, logwidth := s.logwidth - 1 / (n : F), Obj := Obj1,
               heap := Function.update heap1 p ex.1, next := s.next + 1, rng := ex.2 },
             { H := H, LogZ := logZnew, LogWt := logWt, Sample := sample })

/-- The state of `Sampling` on entry to its loop (lines 31-36), for `n = len(Obj)`. -/
def SamplingInit (M : MathFns F) (Obj : List Ptr) (heap : Ptr → α) (next : Ptr)
    (rng : Rand F) : State F α :=
  { H := 0, logZ := -MaxFloat64, logwidth := M.Log (1 - M.Exp (-1 / (Obj.length : F))),
    Obj := Obj, heap := heap, next := next, rng := rng }

/-- The first `k` passes of the loop of `Sampling`: the state reached and the `Result`s
sent, in order. -/
def loop (M : MathFns F) (O : Object F α) (n fuel : ℕ) :
    ℕ → State F α → Except Fault (State F α × List (Result F))
  | 0, s => .ok (s, [])
  | k + 1, s =>
    match iteration M O n fuel s with
    | .error e => .error e
    | .ok (s1, r) =>
      match loop M O n fuel k s1 with
      | .error e => .error e
      | .ok (s2, rs) => .ok (s2, r :: rs)

/-- The function `Sampling` observed for `k` sends on `cOut`. -/
def Sampling (M : MathFns F) (O : Object F α) (fuel k : ℕ) (Obj : List Ptr)
    (heap : Ptr → α) (next : Ptr) (rng : Rand F) :
    Except Fault (State F α × List (Result F)) :=
  loop M O Obj.length fuel k (SamplingInit M Obj heap next rng)

end engine

/-! ### `GetArray` -/

/-- What a receive from a channel of `Result` finds: the next value sent, the channel
closed and drained, or no value ever, in which case the receive never returns. -/
inductive Recv (F : Type) where
  | value (r : Result F)
  | closed
  | blocked

section getArray
variable {F : Type}

/-- Indexing `results[i]` of a slice of `Result` with an `int`; out of range is a
run-time panic. -/
def resultAt (results : List (Result F)) (i : ℤ) : Except Fault (Result F) :=
  if 0 ≤ i then
    match results[i.toNat]? with
    | some r => .ok r
    | none => .error .indexOutOfRange
  else .error .indexOutOfRange

/-- The loop `for r := range(c)` of `GetArray` (lines 86-89). `c j` is what the receive
number `j` on the channel finds, `received` counts the values received so far, and `i`,
`results` are the variables of the program. Returns `results` and `received` when the
loop is left, by `break` or because the channel is closed. -/
def gatherLoop (c : ℕ → Recv F) (iterations : ℤ) :
    ℕ → ℕ → ℤ → List (Result F) → Except Fault (List (Result F) × ℕ)
  | 0, _, _, _ => .error .outOfFuel
  | fuel + 1, received, i, results =>
    match c received with
    | .closed => .ok (results, received)
    | .blocked => .error .blocked
    | .value r =>
      if i + 1 > iterations then
        .ok (results, received + 1)
      else
        gatherLoop c iterations fuel (received + 1) (i + 1) (results ++ [r])

/-- The function `GetArray`: the slice it returns, and the number of values it has
received from `c`. The calls of `log.Printf` are left out. -/
def GetArray (fuel : ℕ) (c : ℕ → Recv F) (iterations : ℤ) :
    Except Fault (List (Result F) × ℕ) :=
  if iterations < 0 then
    .error .capOutOfRange
  else
    match gatherLoop c iterations fuel 0 0 [] with
    | .error e => .error e
    | .ok (results, received) =>
      match resultAt results ((results.length : ℤ) - 1) with
      | .error e => .error e
      | .ok _ => .ok (results, received)

/-- Example channel: receive number `j` finds a `Result` whose `Sample` is the address `j`. -/
def exampleChan : ℕ → Recv ℚ :=
  fun j => .value { H := 0, LogZ := 0, LogWt := 0, Sample := j }

end getArray

end Mininest

/-! ## `lighthouse.go` -/

namespace Lighthouse

/-- The struct `Object` of the lighthouse example. -/
structure Object (F : Type) where
  u : F
  v : F
  x : F
  y : F
  logL : F

section lighthouse
variable {F : Type} [LinearOrderedField F]

/-- The method `Copy`: the contents `*ret = *o` of the new object. -/
def Object.Copy (o : Object F) : Object F := o

/-- The method `LogL`. -/
def Object.LogL (o : Object F) : F := o.logL

/-- The arrival positions `D` of `logLhood`. -/
def D : List F :=
  [4.73, 0.45, -1.73, 1.09, 2.19, 0.12,
   1.31, 1.00, 1.32, 1.07, 0.86, -0.49, -2.59, 1.73, 2.11,
   1.61, 4.98, 1.71, 2.23, -57.20, 0.96, 1.25, -1.56, 2.45,
   1.19, 2.17, -10.66, 1.91, -4.16, 1.92, 0.10, 1.98, -2.51,
   5.55, -0.47, 1.91, 0.95, -0.78, -0.84, 1.72, -0.01, 1.48,
   2.70, 1.21, 4.41, -4.79, 1.33, 0.81, 0.20, 1.58, 1.29,
   16.19, 2.75, -2.38, -1.79, 6.50, -18.53, 0.72, 0.94, 3.64,
   1.94, -0.11, 1.57, 0.57]

/-- The function `logLhood`: the loop `for k = 0; k < N; k++` with `N = 64`, adding
`math.Log(num / denom)` to the accumulator `logL`. -/
def logLhood (M : Mininest.MathFns F) (x y : F) : F :=
  (List.range 64).foldl
    (fun logL k =>
      let num := y / 3.1416
      let denom := (D.getD k 0 - x) * (D.getD k 0 - x) + y * y
      logL + M.Log (num / denom))
    0

/-- The function `SampleFromPrior`: the new object and the advanced random source. -/
def SampleFromPrior (M : Mininest.MathFns F) (rng : Mininest.Rand F) :
    Object F × Mininest.Rand F :=
  let u := rng.Float64.1
  let rng1 := rng.Float64.2
  let v := rng1.Float64.1
  let rng2 := rng1.Float64.2
  let x := 4.0 * u - 2.0
  let y := 2.0 * v
  ({ u := u, v := v, x := x, y := y, logL := logLhood M x y }, rng2)

/-- The variables of `Explore` that live across trials. -/
structure Walk (F : Type) where
  Obj : Object F
  step : F
  accept : ℕ
  reject : ℕ
  rng : Mininest.Rand F

/-- The cache of an object is up to date: `x`, `y` and `logL` are the values computed
from `u` and `v`. -/
def Object.Consistent (M : Mininest.MathFns F) (o : Object F) : Prop :=
  o.x = 4.0 * o.u - 2.0 ∧ o.y = 2.0 * o.v ∧ o.logL = logLhood M o.x o.y

variable [FloorRing F]

/-- The trial object `Try` built in the body of the loop of `Explore` (lines 98-104), in
exact arithmetic; `tryU64` is the computation of `Try.u` with `float64` rounding. -/
def trialObject (M : Mininest.MathFns F) (w : Walk F) : Object F :=
  let u0 := w.Obj.u + w.step * (2 * w.rng.Float64.1 - 1)
  let v0 := w.Obj.v + w.step * (2 * w.rng.Float64.2.Float64.1 - 1)
  let u := u0 - (⌊u0⌋ : F)
  let v := v0 - (⌊v0⌋ : F)
  let x := 4.0 * u - 2.0
  let y := 2.0 * v
  { u := u, v := v, x := x, y := y, logL := logLhood M x y }

/-- Lines 98 and 100 of `Explore` in `float64` arithmetic, every operation rounded by
`round64`: the value of `Try.u` computed from `Obj.u`, `step` and the draw `r`. -/
def tryU64 (u step r : ℚ) : ℚ :=
  let t := Mininest.round64
    (u + Mininest.round64 (step * Mininest.round64 (Mininest.round64 (2 * r) - 1)))
  Mininest.round64 (t - ⌊t⌋)

/-- The new step size after a trial (lines 113-118), from the updated counters. -/
def refineStep (M : Mininest.MathFns F) (step : F) (accept reject : ℕ) : F :=
  let step1 := if accept > reject then step * M.Exp (1.0 / (accept : F)) else step
  if accept < reject then step1 / M.Exp (1.0 / (reject : F)) else step1

/-- One pass through the loop of `Explore` (lines 97-118). -/
def trial (M : Mininest.MathFns F) (logLstar : F) (w : Walk F) : Walk F :=
  let Try := trialObject M w
  let rng := w.rng.Float64.2.Float64.2
  if Try.logL > logLstar then
    { Obj := Try, step := refineStep M w.step (w.accept + 1) w.reject,
      accept := w.accept + 1, reject := w.reject, rng := rng }
  else
    { Obj := w.Obj, step := refineStep M w.step w.accept (w.reject + 1),
      accept := w.accept, reject := w.reject + 1, rng := rng }

/-- The loop `for ; m > 0; m--` of `Explore`, entered with counter `m`. -/
def exploreLoop (M : Mininest.MathFns F) (logLstar : F) : ℕ → Walk F → Walk F
  | 0, w => w
  | m + 1, w => exploreLoop M logLstar m (trial M logLstar w)

/-- The method `Explore`: the walk after the 20 trials, starting with `step = 0.1`. -/
def Object.ExploreWalk (M : Mininest.MathFns F) (logLstar : F) (o : Object F)
    (rng : Mininest.Rand F) : Walk F :=
  exploreLoop M logLstar 20 { Obj := o, step := 0.1, accept := 0, reject := 0, rng := rng }

/-- The walk of `Explore` after its first `j` trials: the loop entered with
`step = 0.1` and both counters at 0, run for `j` passes. -/
def Object.walkAfter (M : Mininest.MathFns F) (logLstar : F) (o : Object F)
    (rng : Mininest.Rand F) (j : ℕ) : Walk F :=
  exploreLoop M logLstar j { Obj := o, step := 0.1, accept := 0, reject := 0, rng := rng }

/-- The method `Explore`: the object it leaves in `*Obj`, and the random source. -/
def Object.Explore (M : Mininest.MathFns F) (logLstar : F) (o : Object F)
    (rng : Mininest.Rand F) : Object F × Mininest.Rand F :=
  ((o.ExploreWalk M logLstar rng).Obj, (o.ExploreWalk M logLstar rng).rng)

/-- The type `*Object` as an implementation of the interface `mininest.Object`. -/
def impl (M : Mininest.MathFns F) : Mininest.Object F (Object F) :=
  { Explore := fun logLstar o rng => o.Explore M logLstar rng,
    LogL := fun o => o.LogL,
    Copy := fun o => o.Copy }

end lighthouse

/-- The likelihood `L(x,y) = PRODUCT[k] (y/pi) / ((D[k] - x)^2 + y^2)` documented in the
header of `lighthouse.go`, with `pi` the circle constant. -/
noncomputable def documentedLikelihood (x y : ℝ) : ℝ :=
  ((D : List ℝ).map (fun d => (y / Real.pi) / ((d - x) ^ 2 + y ^ 2))).prod

/-! ### An example population -/

section example_run
variable {F : Type} [LinearOrderedField F]

/-- The object `SampleFromPrior` builds when `rand.Float64()` returns `u` and then `v`. -/
def sampled (M : Mininest.MathFns F) (u v : F) : Object F :=
  (SampleFromPrior M { draws := fun i => if i = 0 then u else v, pos := 0 }).1

/-- Example memory: address 1 holds the object sampled at `(0.2, 0.005)`, every other
address the object sampled at `(0.2, 0.5)`. -/
def exampleHeap (M : Mininest.MathFns F) : Mininest.Ptr → Object F :=
  fun p => if p = 1 then sampled M 0.2 0.005 else sampled M 0.2 0.5

/-- Example random source: `0.25`, `0.5`, `0.75`, and `0.5` from then on. -/
def exampleRand : Mininest.Rand F :=
  { draws := fun i => if i = 0 then 0.25 else if i = 2 then 0.75 else 0.5, pos := 0 }

/-- Example state on entry to the loop of `Sampling`: the population `[0, 1]` of two
distinct objects in `exampleHeap`, with `exampleRand`. -/
def exampleState (M : Mininest.MathFns F) : Mininest.State F (Object F) :=
  Mininest.SamplingInit M [0, 1] (exampleHeap M) 2 exampleRand

/-- Example state with a population of one object. -/
def exampleSingle (M : Mininest.MathFns F) : Mininest.State F (Object F) :=
  Mininest.SamplingInit M [0] (exampleHeap M) 1 exampleRand

end example_run

end Lighthouse

/-! ## Theorems -/

namespace Mininest

/-! ### Logarithmic addition -/

theorem plus_real (x y : ℝ) :
    plus realMath x y = Real.log (Real.exp x + Real.exp y) := by
  have key : ∀ a b : ℝ,
      a + Real.log (1 + Real.exp (b - a)) = Real.log (Real.exp a + Real.exp b) := by
    intro a b
    have h1 : (0 : ℝ) < 1 + Real.exp (b - a) := by positivity
    have h2 : Real.exp a * (1 + Real.exp (b - a)) = Real.exp a + Real.exp b := by
      rw [mul_add, mul_one, ← Real.exp_add]
      congr 2
      ring
    calc a + Real.log (1 + Real.exp (b - a))
        = Real.log (Real.exp a) + Real.log (1 + Real.exp (b - a)) := by rw [Real.log_exp]
      _ = Real.log (Real.exp a * (1 + Real.exp (b - a))) :=
          (Real.log_mul (Real.exp_pos a).ne' h1.ne').symm
      _ = Real.log (Real.exp a + Real.exp b) := by rw [h2]
  unfold plus realMath
  split
  · exact key x y
  · rw [key y x, add_comm]

/-- C1: over the reals `plus x y` is `log (exp x + exp y)`; in particular `plus` is
commutative and `plus (log 3) (log 4) = log 7`. -/
theorem plus_eq_log_add_exp (x y : ℝ) :
    plus realMath x y = Real.log (Real.exp x + Real.exp y) ∧
    plus realMath x y = plus realMath y x ∧
    plus realMath (Real.log 3) (Real.log 4) = Real.log 7 := by
  refine ⟨plus_real x y, ?_, ?_⟩
  · rw [plus_real, plus_real, add_comm]
  · rw [plus_real, Real.exp_log (by norm_num), Real.exp_log (by norm_num)]
    norm_num

/-! ### Selection of the worst object -/

section worst
variable {F α : Type} [LinearOrderedField F]

theorem worstLoop_spec (O : Object F α) (heap : Ptr → α) (Obj : List Ptr) :
    ∀ (rest pre : List Ptr) (w : ℕ), Obj = pre ++ rest → w ≤ pre.length →
      (w < Obj.length ∨ rest = []) →
      FirstMinBelow O heap Obj pre.length w →
      w ≤ worstLoop O heap Obj (rest.enumFrom pre.length) w ∧
      (w < Obj.length → worstLoop O heap Obj (rest.enumFrom pre.length) w < Obj.length) ∧
      FirstMinBelow O heap Obj Obj.length
        (worstLoop O heap Obj (rest.enumFrom pre.length) w) := by
  intro rest
  induction rest with
  | nil =>
    intro pre w hObj _ _ hInv
    simp only [List.enumFrom_nil, worstLoop]
    refine ⟨le_refl _, fun h => h, ?_⟩
    simpa [hObj] using hInv
  | cons o rest ih =>
    intro pre w hObj hw _ hInv
    have hObj1 : Obj = (pre ++ [o]) ++ rest := by simp [hObj]
    have hlen : (pre ++ [o]).length = pre.length + 1 := by simp
    have hk : pre.length < Obj.length := by simp [hObj]
    have ho : logLAt O heap Obj pre.length = O.LogL (heap o) := by
      simp [logLAt, hObj, List.getD_eq_getElem?_getD, List.getElem_append_right]
    simp only [List.enumFrom_cons, worstLoop]
    have hstep : ∀ i, i < pre.length + 1 → i < pre.length ∨ i = pre.length := by
      intro i hi; omega
    by_cases hlt : O.LogL (heap o) < O.LogL (heap (Obj.getD w 0))
    · rw [if_pos hlt]
      have hInv1 : FirstMinBelow O heap Obj (pre ++ [o]).length pre.length := by
        rw [hlen]
        have hlt1 : logLAt O heap Obj pre.length < logLAt O heap Obj w := by
          rw [ho]; exact hlt
        refine ⟨fun i hi => ?_, fun i hi => ?_⟩
        · rcases hstep i hi with h | h
          · exact fun hcon => hInv.1 i h (lt_trans hcon hlt1)
          · rw [h]; exact lt_irrefl _
        · exact lt_of_lt_of_le hlt1 (not_lt.mp (hInv.1 i hi))
      have := ih (pre ++ [o]) pre.length hObj1 (by simp) (Or.inl hk) hInv1
      rw [hlen] at this
      exact ⟨by omega, fun _ => this.2.1 hk, this.2.2⟩
    · rw [if_neg hlt]
      have hw1 : w < Obj.length := by omega
      have hInv1 : FirstMinBelow O heap Obj (pre ++ [o]).length w := by
        rw [hlen]
        refine ⟨fun i hi => ?_, hInv.2⟩
        rcases hstep i hi with h | h
        · exact hInv.1 i h
        · rw [h, ho]; exact hlt
      have := ih (pre ++ [o]) w hObj1 (by simp; omega) (Or.inl hw1) hInv1
      rw [hlen] at this
      exact this

theorem findWorst_spec (O : Object F α) (heap : Ptr → α) (Obj : List Ptr) :
    (Obj ≠ [] → findWorst O heap Obj < Obj.length) ∧
    FirstMinBelow O heap Obj Obj.length (findWorst O heap Obj) := by
  have h := worstLoop_spec O heap Obj Obj [] 0 (by simp) (by simp)
    (by cases Obj <;> simp) ⟨fun i hi => by simp at hi, fun i hi => by simp at hi⟩
  unfold findWorst List.enum
  refine ⟨fun hne => h.2.1 ?_, h.2.2⟩
  exact List.length_pos.mpr hne

theorem findWorst_lt (O : Object F α) (heap : Ptr → α) (Obj : List Ptr) (h : Obj ≠ []) :
    findWorst O heap Obj < Obj.length :=
  (findWorst_spec O heap Obj).1 h

/-- C2: for a non-empty population the index `worst` is in range, no object has a
`LogL` strictly below that of `Obj[worst]`, and every object at an earlier index has a
strictly greater `LogL`. -/
theorem findWorst_first_minimum (O : Object F α) (heap : Ptr → α) (Obj : List Ptr)
    (hne : Obj ≠ []) :
    findWorst O heap Obj < Obj.length ∧
    (∀ i, i < Obj.length →
      ¬ O.LogL (heap (Obj.getD i 0)) < O.LogL (heap (Obj.getD (findWorst O heap Obj) 0))) ∧
    (∀ i, i < findWorst O heap Obj →
      O.LogL (heap (Obj.getD (findWorst O heap Obj) 0)) < O.LogL (heap (Obj.getD i 0))) :=
  ⟨findWorst_lt O heap Obj hne, (findWorst_spec O heap Obj).2.1, (findWorst_spec O heap Obj).2.2⟩

end worst

/-! ### The draw of a survivor -/

section survivor
variable {F : Type} [LinearOrderedField F] [FloorRing F]

theorem aCopyOf_eq_floor (n : ℕ) (r : F) (h0 : 0 ≤ r) (h1 : r < 1) (hn : 0 < n) :
    aCopyOf n r = ⌊(n : F) * r⌋ ∧ 0 ≤ ⌊(n : F) * r⌋ ∧ ⌊(n : F) * r⌋ < n := by
  have hnF : (0 : F) < n := by exact_mod_cast hn
  have hx0 : (0 : F) ≤ (n : F) * r := mul_nonneg hnF.le h0
  have hx1 : (n : F) * r < ((n : ℤ) : F) := by
    have : (n : F) * r < (n : F) * 1 := mul_lt_mul_of_pos_left h1 hnF
    simpa using this
  have hf0 : 0 ≤ ⌊(n : F) * r⌋ := Int.floor_nonneg.mpr hx0
  have hf1 : ⌊(n : F) * r⌋ < n := Int.floor_lt.mpr hx1
  refine ⟨?_, hf0, hf1⟩
  unfold aCopyOf goInt
  rw [if_pos hx0, Int.tmod_eq_emod hf0 (by omega), Int.emod_eq_of_lt hf0 hf1]

theorem drawSurvivor_spec (n worst : ℕ) :
    ∀ (fuel : ℕ) (rng : Rand F) (a : ℤ) (rng1 : Rand F),
      drawSurvivor n worst fuel rng = .ok (a, rng1) →
      a ≠ (worst : ℤ) ∧ ∃ j, j < fuel ∧ a = aCopyOf n (rng.draws (rng.pos + j)) ∧
        rng1 = { draws := rng.draws, pos := rng.pos + j + 1 } ∧
        ∀ i, i < j → aCopyOf n (rng.draws (rng.pos + i)) = (worst : ℤ) := by
  intro fuel
  induction fuel with
  | zero => intro rng a rng1 h; simp [drawSurvivor] at h
  | succ fuel ih =>
    intro rng a rng1 h
    unfold drawSurvivor at h
    simp only [Rand.Float64] at h
    by_cases hne : aCopyOf n (rng.draws rng.pos) ≠ (worst : ℤ)
    · rw [if_pos hne] at h
      simp only [Except.ok.injEq, Prod.mk.injEq] at h
      obtain ⟨ha, hr⟩ := h
      subst ha
      refine ⟨hne, 0, by omega, by simp, by simp [← hr], ?_⟩
      intro i hi; omega
    · rw [if_neg hne] at h
      obtain ⟨h1, j, hj, h2, h3, h4⟩ := ih _ a rng1 h
      refine ⟨h1, j + 1, by omega, ?_, ?_, ?_⟩
      · rw [h2]; simp only []; congr 2; omega
      · rw [h3]; simp only [Rand.mk.injEq, true_and]; omega
      · intro i hi
        rcases Nat.eq_zero_or_pos i with h0 | h0
        · subst h0; simpa using hne
        · have := h4 (i - 1) (by omega)
          simp only [] at this
          rw [← this]; congr 2; omega

theorem drawSurvivor_ok (n worst : ℕ) :
    ∀ (fuel : ℕ) (rng : Rand F),
      (∃ j, j < fuel ∧ aCopyOf n (rng.draws (rng.pos + j)) ≠ (worst : ℤ)) →
      ∃ a rng1, drawSurvivor n worst fuel rng = .ok (a, rng1) := by
  intro fuel
  induction fuel with
  | zero => intro rng h; obtain ⟨j, hj, _⟩ := h; omega
  | succ fuel ih =>
    intro rng h
    obtain ⟨j, hj, hne⟩ := h
    unfold drawSurvivor
    simp only [Rand.Float64]
    by_cases h0 : aCopyOf n (rng.draws rng.pos) ≠ (worst : ℤ)
    · rw [if_pos h0]; exact ⟨_, _, rfl⟩
    · rw [if_neg h0]
      apply ih
      rcases Nat.eq_zero_or_pos j with hj0 | hj0
      · subst hj0; exact absurd (by simpa using hne) h0
      · refine ⟨j - 1, by omega, ?_⟩
        simp only []
        have : rng.pos + 1 + (j - 1) = rng.pos + j := by omega
        rw [this]; exact hne

end survivor

/-! ### One pass of the loop of `Sampling` -/

section iteration
variable {F α : Type} [LinearOrderedField F] [FloorRing F]

theorem sliceGet_ok {Obj : List Ptr} {i : ℤ} {p : Ptr} (h : sliceGet Obj i = .ok p) :
    0 ≤ i ∧ i.toNat < Obj.length ∧ p = Obj.getD i.toNat 0 := by
  unfold sliceGet at h
  split at h
  · rename_i h0
    split at h
    · rename_i q hq
      simp only [Except.ok.injEq] at h
      subst h
      obtain ⟨hlt, hq1⟩ := List.getElem?_eq_some_iff.mp hq
      exact ⟨h0, hlt, by simp [List.getD_eq_getElem?_getD, hq]⟩
    · simp at h
  · simp at h

theorem sliceGet_nat {Obj : List Ptr} {i : ℕ} (h : i < Obj.length) :
    sliceGet Obj (i : ℤ) = .ok (Obj.getD i 0) := by
  unfold sliceGet
  simp [List.getElem?_eq_getElem h, List.getD_eq_getElem?_getD]

theorem replaceWorst_single (n worst fuel : ℕ) (Obj : List Ptr) (rng : Rand F)
    (hn : ¬ n > 1) : replaceWorst n worst fuel Obj rng = .ok (Obj, rng) := by
  unfold replaceWorst
  rw [if_neg hn]

theorem replaceWorst_spec (n worst fuel : ℕ) (Obj Obj1 : List Ptr) (rng rng1 : Rand F)
    (hn : n > 1) (h : replaceWorst n worst fuel Obj rng = .ok (Obj1, rng1)) :
    ∃ a : ℕ, a ≠ worst ∧ a < Obj.length ∧ worst < Obj.length ∧
      Obj1 = Obj.set worst (Obj.getD a 0) ∧
      ∃ j, j < fuel ∧ (a : ℤ) = aCopyOf n (rng.draws (rng.pos + j)) ∧
        rng1 = { draws := rng.draws, pos := rng.pos + j + 1 } ∧
        ∀ i, i < j → aCopyOf n (rng.draws (rng.pos + i)) = (worst : ℤ) := by
  unfold replaceWorst at h
  rw [if_pos hn] at h
  split at h
  · rename_i aCopy rngA hdraw
    split at h
    · rename_i p hget
      split at h
      · rename_i Obj2 hset
        simp only [Except.ok.injEq, Prod.mk.injEq] at h
        obtain ⟨hO, hr⟩ := h
        subst hO; subst hr
        obtain ⟨hne, j, hj, ha, hrng, hprev⟩ := drawSurvivor_spec n worst fuel rng _ _ hdraw
        obtain ⟨h0, hlt, hp⟩ := sliceGet_ok hget
        unfold sliceSet at hset
        split at hset
        · rename_i hw
          simp only [Except.ok.injEq] at hset
          refine ⟨aCopy.toNat, ?_, hlt, hw, ?_, j, hj, ?_, hrng, hprev⟩
          · intro hcon
            apply hne
            rw [← hcon, Int.toNat_of_nonneg h0]
          · rw [← hset, hp]
          · rw [Int.toNat_of_nonneg h0]; exact ha
        · simp at hset
      · simp at h
    · simp at h
  · simp at h

theorem iteration_spec (M : MathFns F) (O : Object F α) (n fuel : ℕ) (s s1 : State F α)
    (r : Result F) (h : iteration M O n fuel s = .ok (s1, r)) :
    findWorst O s.heap s.Obj < s.Obj.length ∧
    r.LogWt = s.logwidth + O.LogL (s.heap (s.Obj.getD (findWorst O s.heap s.Obj) 0)) ∧
    r.LogZ = plus M s.logZ r.LogWt ∧
    r.H = M.Exp (r.LogWt - r.LogZ) * O.LogL (s.heap (s.Obj.getD (findWorst O s.heap s.Obj) 0))
      + M.Exp (s.logZ - r.LogZ) * (s.H + s.logZ) - r.LogZ ∧
    r.Sample = s.next ∧
    s1.H = r.H ∧ s1.logZ = r.LogZ ∧ s1.logwidth = s.logwidth - 1 / (n : F) ∧
    s1.next = s.next + 1 ∧
    ∃ rng1, replaceWorst n (findWorst O s.heap s.Obj) fuel s.Obj s.rng = .ok (s1.Obj, rng1) ∧
      findWorst O s.heap s.Obj < s1.Obj.length ∧
      s1.heap = Function.update
        (Function.update s.heap s.next
          (O.Copy (s.heap (s.Obj.getD (findWorst O s.heap s.Obj) 0))))
        (s1.Obj.getD (findWorst O s.heap s.Obj) 0)
        (O.Explore
          (O.LogL (Function.update s.heap s.next
            (O.Copy (s.heap (s.Obj.getD (findWorst O s.heap s.Obj) 0)))
            (s.Obj.getD (findWorst O s.heap s.Obj) 0)))
          (Function.update s.heap s.next
            (O.Copy (s.heap (s.Obj.getD (findWorst O s.heap s.Obj) 0)))
            (s1.Obj.getD (findWorst O s.heap s.Obj) 0))
          rng1).1 ∧
      s1.rng = (O.Explore
          (O.LogL (Function.update s.heap s.next
            (O.Copy (s.heap (s.Obj.getD (findWorst O s.heap s.Obj) 0)))
            (s.Obj.getD (findWorst O s.heap s.Obj) 0)))
          (Function.update s.heap s.next
            (O.Copy (s.heap (s.Obj.getD (findWorst O s.heap s.Obj) 0)))
            (s1.Obj.getD (findWorst O s.heap s.Obj) 0))
          rng1).2 := by
  unfold iteration at h
  simp only [] at h
  split at h
  · simp at h
  · rename_i w hw
    obtain ⟨_, hwlt, hwp⟩ := sliceGet_ok hw
    simp only [Int.toNat_ofNat] at hwlt hwp
    split at h
    · simp at h
    · rename_i Obj1 rng1 hrep
      split at h
      · simp at h
      · rename_i p hp
        obtain ⟨_, hplt, hpp⟩ := sliceGet_ok hp
        simp only [Int.toNat_ofNat] at hplt hpp
        simp only [Except.ok.injEq, Prod.mk.injEq] at h
        obtain ⟨hs, hr⟩ := h
        subst hs; subst hr
        subst hwp; subst hpp
        exact ⟨hwlt, rfl, rfl, rfl, rfl, rfl, rfl, rfl, rfl, rng1, hrep, hplt, rfl, rfl⟩

theorem iteration_ok (M : MathFns F) (O : Object F α) (fuel : ℕ) (s : State F α)
    (hne : s.Obj ≠ [])
    (hvalid : s.Obj.length > 1 → ∀ i, 0 ≤ s.rng.draws i ∧ s.rng.draws i < 1)
    (hdraw : s.Obj.length > 1 → ∃ j, j < fuel ∧
      aCopyOf s.Obj.length (s.rng.draws (s.rng.pos + j)) ≠ (findWorst O s.heap s.Obj : ℤ)) :
    ∃ s1 r, iteration M O s.Obj.length fuel s = .ok (s1, r) := by
  have hw := findWorst_lt O s.heap s.Obj hne
  have hrep : ∃ Obj1 rng1, replaceWorst s.Obj.length (findWorst O s.heap s.Obj) fuel s.Obj s.rng
      = .ok (Obj1, rng1) ∧ Obj1.length = s.Obj.length := by
    by_cases hn : s.Obj.length > 1
    · obtain ⟨a, rng1, hd⟩ := drawSurvivor_ok _ _ fuel s.rng (hdraw hn)
      obtain ⟨_, j, _, ha, _, _⟩ := drawSurvivor_spec _ _ fuel s.rng a rng1 hd
      obtain ⟨hfl, h0, h1⟩ := aCopyOf_eq_floor s.Obj.length (s.rng.draws (s.rng.pos + j))
        (hvalid hn _).1 (hvalid hn _).2 (by omega)
      have ha0 : 0 ≤ a := by rw [ha, hfl]; exact h0
      have ha1 : a.toNat < s.Obj.length := by
        have : a < s.Obj.length := by rw [ha, hfl]; exact h1
        omega
      have hget : sliceGet s.Obj a = .ok (s.Obj.getD a.toNat 0) := by
        have := sliceGet_nat ha1
        rwa [Int.toNat_of_nonneg ha0] at this
      refine ⟨s.Obj.set (findWorst O s.heap s.Obj) (s.Obj.getD a.toNat 0), rng1, ?_, by simp⟩
      unfold replaceWorst
      rw [if_pos hn, hd]
      simp only [hget, sliceSet, if_pos hw]
    · exact ⟨s.Obj, s.rng, replaceWorst_single _ _ _ _ _ hn, rfl⟩
  obtain ⟨Obj1, rng1, h1, hlen⟩ := hrep
  unfold iteration
  simp only [sliceGet_nat hw, h1, sliceGet_nat (hlen ▸ hw)]
  exact ⟨_, _, rfl⟩

theorem getD_mem {Obj : List Ptr} {i : ℕ} (h : i < Obj.length) : Obj.getD i 0 ∈ Obj := by
  rw [List.getD_eq_getElem?_getD, List.getElem?_eq_getElem h]
  exact List.getElem_mem h

theorem replaceWorst_subset (n worst fuel : ℕ) (Obj Obj1 : List Ptr) (rng rng1 : Rand F)
    (h : replaceWorst n worst fuel Obj rng = .ok (Obj1, rng1)) :
    Obj1.length = Obj.length ∧ ∀ p, p ∈ Obj1 → p ∈ Obj := by
  by_cases hn : n > 1
  · obtain ⟨a, _, ha, _, hO, _⟩ := replaceWorst_spec n worst fuel Obj Obj1 rng rng1 hn h
    subst hO
    refine ⟨by simp, fun p hp => ?_⟩
    rcases List.mem_or_eq_of_mem_set hp with h1 | h1
    · exact h1
    · rw [h1]; exact getD_mem ha
  · rw [replaceWorst_single _ _ _ _ _ hn] at h
    simp only [Except.ok.injEq, Prod.mk.injEq] at h
    rw [← h.1]
    exact ⟨rfl, fun p hp => hp⟩

/-- C10: with a single object the pass draws no survivor and leaves the slot alone; the
object afterwards is the result of `Explore` on its own state, with its own `LogL` as
the floor, and with the random source as it was on entry. -/
theorem single_object_explored_directly (M : MathFns F) (O : Object F α) (fuel : ℕ)
    (s : State F α) (p : Ptr) (hObj : s.Obj = [p]) (hfresh : p < s.next) :
    ∃ s1 r, iteration M O 1 fuel s = .ok (s1, r) ∧ s1.Obj = [p] ∧
      s1.heap p = (O.Explore (O.LogL (s.heap p)) (s.heap p) s.rng).1 ∧
      s1.rng = (O.Explore (O.LogL (s.heap p)) (s.heap p) s.rng).2 := by
  have hne : s.Obj ≠ [] := by simp [hObj]
  have hlen : s.Obj.length = 1 := by simp [hObj]
  obtain ⟨s1, r, h⟩ := iteration_ok M O fuel s hne (fun hgt => by omega) (fun hgt => by omega)
  rw [hlen] at h
  have hw : findWorst O s.heap s.Obj = 0 := by
    have := findWorst_lt O s.heap s.Obj hne
    omega
  obtain ⟨_, _, _, _, _, _, _, _, _, rng1, hrep, _, hheap, hrng⟩ :=
    iteration_spec M O 1 fuel s s1 r h
  have h11 : ¬ (1 : ℕ) > 1 := by omega
  rw [replaceWorst_single 1 _ fuel s.Obj s.rng h11] at hrep
  simp only [Except.ok.injEq, Prod.mk.injEq] at hrep
  obtain ⟨hO, hr⟩ := hrep
  have hp : s.Obj.getD 0 0 = p := by simp [hObj]
  have hpn : p ≠ s.next := Nat.ne_of_lt hfresh
  rw [← hO, ← hr, hw, hp] at hheap hrng
  rw [Function.update_noteq hpn] at hheap hrng
  refine ⟨s1, r, h, by rw [← hO, hObj], ?_, hrng⟩
  rw [hheap, Function.update_same]

theorem loop_succ_ok (M : MathFns F) (O : Object F α) (n fuel k : ℕ) (s s2 : State F α)
    (rs : List (Result F)) (h : loop M O n fuel (k + 1) s = .ok (s2, rs)) :
    ∃ s1 r rs1, iteration M O n fuel s = .ok (s1, r) ∧
      loop M O n fuel k s1 = .ok (s2, rs1) ∧ rs = r :: rs1 := by
  unfold loop at h
  split at h
  · simp at h
  · rename_i s1 r hit
    split at h
    · simp at h
    · rename_i s3 rs1 hl
      simp only [Except.ok.injEq, Prod.mk.injEq] at h
      exact ⟨s1, r, rs1, hit, by rw [hl, h.1], h.2.symm⟩

theorem loop_succ_of (M : MathFns F) (O : Object F α) (n fuel k : ℕ) (s s1 s2 : State F α)
    (r : Result F) (rs1 : List (Result F)) (h1 : iteration M O n fuel s = .ok (s1, r))
    (h2 : loop M O n fuel k s1 = .ok (s2, rs1)) :
    loop M O n fuel (k + 1) s = .ok (s2, r :: rs1) := by
  rw [loop]
  simp only [h1, h2]

theorem iteration_frame (M : MathFns F) (O : Object F α) (n fuel : ℕ) (s s1 : State F α)
    (r : Result F) (hwf : ∀ p, p ∈ s.Obj → p < s.next)
    (h : iteration M O n fuel s = .ok (s1, r)) :
    (∀ p, p ∈ s1.Obj → p < s1.next) ∧ (∀ p, p ∈ s1.Obj → p ∈ s.Obj) ∧
    s1.next = s.next + 1 ∧
    ∀ q, q ≠ s.next → q ∉ s1.Obj → s1.heap q = s.heap q := by
  obtain ⟨_, _, _, _, _, _, _, _, hnext, rng1, hrep, hw1, hheap, _⟩ :=
    iteration_spec M O n fuel s s1 r h
  obtain ⟨_, hsub⟩ := replaceWorst_subset n _ fuel s.Obj s1.Obj s.rng rng1 hrep
  refine ⟨fun p hp => ?_, hsub, hnext, fun q hq hmem => ?_⟩
  · rw [hnext]
    exact Nat.lt_succ_of_lt (hwf p (hsub p hp))
  · have hne : q ≠ s1.Obj.getD (findWorst O s.heap s.Obj) 0 :=
      fun hcon => hmem (hcon ▸ getD_mem hw1)
    rw [hheap, Function.update_noteq hne, Function.update_noteq hq]

theorem loop_frame (M : MathFns F) (O : Object F α) (n fuel : ℕ) :
    ∀ (k : ℕ) (s sk : State F α) (rs : List (Result F)),
      (∀ p, p ∈ s.Obj → p < s.next) → loop M O n fuel k s = .ok (sk, rs) →
      ∀ q, q < s.next → q ∉ s.Obj → sk.heap q = s.heap q ∧ q ∉ sk.Obj := by
  intro k
  induction k with
  | zero =>
    intro s sk rs _ h q _ hq
    simp only [loop, Except.ok.injEq, Prod.mk.injEq] at h
    rw [← h.1]
    exact ⟨rfl, hq⟩
  | succ k ih =>
    intro s sk rs hwf h q hlt hq
    obtain ⟨s1, r, rs1, hit, hl, _⟩ := loop_succ_ok M O n fuel k s sk rs h
    obtain ⟨hwf1, hsub, hnext, hfr⟩ := iteration_frame M O n fuel s s1 r hwf hit
    have hq1 : q ∉ s1.Obj := fun hmem => hq (hsub q hmem)
    obtain ⟨h1, h2⟩ := ih s1 sk rs1 hwf1 hl q (by rw [hnext]; exact Nat.lt_succ_of_lt hlt) hq1
    exact ⟨by rw [h1, hfr q (Nat.ne_of_lt hlt) hq1], h2⟩

end iteration

end Mininest

/-! ### The lighthouse likelihood and `Explore` -/

namespace Lighthouse
open Mininest

section
variable {F : Type} [LinearOrderedField F]

theorem foldl_range_getD (l : List F) (f : F → F) :
    ∀ n, n ≤ l.length → ∀ a : F,
      (List.range n).foldl (fun acc k => acc + f (l.getD k 0)) a
        = a + ((l.take n).map f).sum := by
  intro n
  induction n with
  | zero => intro _ a; simp
  | succ n ih =>
    intro hn a
    have hlt : n < l.length := by omega
    rw [List.range_succ, List.foldl_append, ih (by omega) a]
    simp only [List.foldl_cons, List.foldl_nil]
    have ht : l.take (n + 1) = l.take n ++ [l.getD n 0] := by
      rw [List.take_succ, List.getElem?_eq_getElem hlt, List.getD_eq_getElem?_getD,
        List.getElem?_eq_getElem hlt]
      rfl
    rw [ht, List.map_append, List.sum_append]
    simp [add_assoc]

theorem logLhood_eq_sum (M : MathFns F) (x y : F) :
    logLhood M x y
      = ((D : List F).map (fun d => M.Log ((y / 3.1416) / ((d - x) * (d - x) + y * y)))).sum := by
  have h := foldl_range_getD (D : List F)
    (fun d => M.Log ((y / 3.1416) / ((d - x) * (d - x) + y * y))) 64 (by simp [D]) 0
  have hlen : (D : List F).length = 64 := by simp [D]
  rw [← hlen, List.take_length, zero_add] at h
  rw [← h]
  rfl
end

theorem term_lt (c d y0 y1 : ℝ) (hc : 0 < c) (h0 : 0 < y0) (h01 : y0 < y1)
    (hd : y0 * y1 < d * d) :
    (y0 / c) / (d * d + y0 * y0) < (y1 / c) / (d * d + y1 * y1) := by
  have h1 : 0 < y1 := lt_trans h0 h01
  have hA : 0 < d * d + y0 * y0 := by nlinarith [mul_self_nonneg d, mul_pos h0 h0]
  have hB : 0 < d * d + y1 * y1 := by nlinarith [mul_self_nonneg d, mul_pos h1 h1]
  rw [div_div, div_div, div_lt_div_iff₀ (mul_pos hc hA) (mul_pos hc hB)]
  nlinarith [mul_pos hc (sub_pos.mpr h01), mul_pos (mul_pos hc (sub_pos.mpr h01)) (sub_pos.mpr hd)]

theorem sum_map_lt (l : List ℝ) (f g : ℝ → ℝ) (hne : l ≠ []) (h : ∀ d ∈ l, f d < g d) :
    (l.map f).sum < (l.map g).sum := by
  induction l with
  | nil => exact absurd rfl hne
  | cons a l ih =>
    rcases l with _ | ⟨b, l⟩
    · simpa using h a (by simp)
    · have := ih (by simp) (fun d hd => h d (List.mem_cons_of_mem _ hd))
      simp only [List.map_cons, List.sum_cons] at this ⊢
      linarith [h a (by simp)]

theorem logLhood_lt (x y0 y1 : ℝ) (h0 : 0 < y0) (h01 : y0 < y1)
    (hd : ∀ d ∈ (D : List ℝ), y0 * y1 < (d - x) * (d - x)) :
    logLhood realMath x y0 < logLhood realMath x y1 := by
  rw [logLhood_eq_sum, logLhood_eq_sum]
  apply sum_map_lt _ _ _ (by simp [D])
  intro d hdm
  have h1 : 0 < y1 := lt_trans h0 h01
  have hA : 0 < (d - x) * (d - x) + y0 * y0 := by
    nlinarith [mul_self_nonneg (d - x), mul_pos h0 h0]
  have hpos : 0 < (y0 / 3.1416) / ((d - x) * (d - x) + y0 * y0) :=
    div_pos (div_pos h0 (by norm_num)) hA
  exact Real.log_lt_log hpos (term_lt 3.1416 (d - x) y0 y1 (by norm_num) h0 h01 (hd d hdm))

theorem D_far (d : ℝ) (hd : d ∈ (D : List ℝ)) : (0.1296 : ℝ) ≤ (d - (-1.2)) * (d - (-1.2)) := by
  simp only [D, List.mem_cons, List.mem_singleton, List.not_mem_nil, or_false] at hd
  rcases hd with h | h | h | h | h | h | h | h | h | h | h | h | h | h | h | h | h | h | h | h | h | h | h | h | h | h | h | h | h | h | h | h | h | h | h | h | h | h | h | h | h | h | h | h | h | h | h | h | h | h | h | h | h | h | h | h | h | h | h | h | h | h | h | h <;> (rw [h]; norm_num)


section walk
variable {F : Type} [LinearOrderedField F] [FloorRing F]

theorem trialObject_half (M : MathFns F) (w : Walk F) (hc : w.Obj.Consistent M)
    (hu : 0 ≤ w.Obj.u ∧ w.Obj.u < 1) (hv : 0 ≤ w.Obj.v ∧ w.Obj.v < 1)
    (h1 : w.rng.draws w.rng.pos = 0.5) (h2 : w.rng.draws (w.rng.pos + 1) = 0.5) :
    trialObject M w = w.Obj := by
  obtain ⟨hx, hy, hl⟩ := hc
  have hz : (2 : F) * 0.5 - 1 = 0 := by norm_num
  have hfu : ⌊w.Obj.u⌋ = 0 := Int.floor_eq_zero_iff.mpr ⟨hu.1, hu.2⟩
  have hfv : ⌊w.Obj.v⌋ = 0 := Int.floor_eq_zero_iff.mpr ⟨hv.1, hv.2⟩
  unfold trialObject
  simp only [Rand.Float64, h1, h2, hz, mul_zero, add_zero, hfu, hfv, Int.cast_zero, sub_zero]
  rw [← hx, ← hy, ← hl]

theorem trial_half (M : MathFns F) (logLstar : F) (w : Walk F) (hc : w.Obj.Consistent M)
    (hu : 0 ≤ w.Obj.u ∧ w.Obj.u < 1) (hv : 0 ≤ w.Obj.v ∧ w.Obj.v < 1)
    (h1 : w.rng.draws w.rng.pos = 0.5) (h2 : w.rng.draws (w.rng.pos + 1) = 0.5) :
    (trial M logLstar w).Obj = w.Obj ∧
    (trial M logLstar w).rng = { draws := w.rng.draws, pos := w.rng.pos + 2 } := by
  unfold trial
  simp only [trialObject_half M w hc hu hv h1 h2]
  split <;> simp [Rand.Float64]

theorem exploreLoop_half (M : MathFns F) (logLstar : F) :
    ∀ (m : ℕ) (w : Walk F), w.Obj.Consistent M →
      (0 ≤ w.Obj.u ∧ w.Obj.u < 1) → (0 ≤ w.Obj.v ∧ w.Obj.v < 1) →
      (∀ i, w.rng.pos ≤ i → w.rng.draws i = 0.5) →
      (exploreLoop M logLstar m w).Obj = w.Obj ∧
      (exploreLoop M logLstar m w).rng = { draws := w.rng.draws, pos := w.rng.pos + 2 * m } := by
  intro m
  induction m with
  | zero => intro w _ _ _ _; simp [exploreLoop]
  | succ m ih =>
    intro w hc hu hv hd
    obtain ⟨hO, hr⟩ := trial_half M logLstar w hc hu hv (hd _ (le_refl _)) (hd _ (by omega))
    have := ih (trial M logLstar w) (by rw [hO]; exact hc) (by rw [hO]; exact hu)
      (by rw [hO]; exact hv) (by rw [hr]; intro i hi; exact hd i (by simp at hi; omega))
    unfold exploreLoop
    rw [this.1, this.2, hO, hr]
    simp only [Rand.mk.injEq, true_and]
    omega

end walk

theorem sampled_eq {F : Type} [LinearOrderedField F] (M : MathFns F) (u v : F) :
    sampled M u v
      = { u := u, v := v, x := 4.0 * u - 2.0, y := 2.0 * v,
          logL := logLhood M (4.0 * u - 2.0) (2.0 * v) } := by
  simp [sampled, SampleFromPrior, Rand.Float64]

theorem example_logL_lt :
    (sampled realMath 0.2 0.005).logL < (sampled realMath 0.2 0.5).logL := by
  rw [sampled_eq, sampled_eq]
  simp only []
  have hx : (4.0 * 0.2 - 2.0 : ℝ) = -1.2 := by norm_num
  rw [hx]
  apply logLhood_lt _ _ _ (by norm_num) (by norm_num)
  intro d hd
  have := D_far d hd
  norm_num at this ⊢
  linarith

theorem example_first_trial :
    trialObject realMath
        { Obj := sampled realMath 0.2 0.5, step := 0.1, accept := 0, reject := 0,
          rng := { draws := (exampleRand : Mininest.Rand ℝ).draws, pos := 1 } }
      = { u := 0.2, v := 0.55, x := -1.2, y := 1.1, logL := logLhood realMath (-1.2) 1.1 } := by
  have hu : ⌊(0.2 : ℝ)⌋ = 0 := by norm_num
  have hv : ⌊(0.55 : ℝ)⌋ = 0 := by norm_num
  have h1 : (0.2 : ℝ) + 0.1 * (2 * 0.5 - 1) = 0.2 := by norm_num
  have h2 : (0.5 : ℝ) + 0.1 * (2 * 0.75 - 1) = 0.55 := by norm_num
  have h3 : (4.0 * 0.2 - 2.0 : ℝ) = -1.2 := by norm_num
  have h4 : (2.0 * 0.55 : ℝ) = 1.1 := by norm_num
  simp only [trialObject, sampled_eq, exampleRand, Rand.Float64]
  norm_num [h1, h2, hu, hv, h3, h4]

section walk2
variable {F : Type} [LinearOrderedField F] [FloorRing F]

theorem exploreLoop_unchanged_or_above (M : MathFns F) (logLstar : F) (o : Object F) :
    ∀ (m : ℕ) (w : Walk F), (w.Obj = o ∨ w.Obj.logL > logLstar) →
      ((exploreLoop M logLstar m w).Obj = o ∨ (exploreLoop M logLstar m w).Obj.logL > logLstar) := by
  intro m
  induction m with
  | zero => intro w h; exact h
  | succ m ih =>
    intro w h
    unfold exploreLoop
    apply ih
    unfold trial
    simp only []
    split
    · rename_i hacc; exact Or.inr hacc
    · exact h

theorem exploreLoop_succ_last (M : MathFns F) (logLstar : F) :
    ∀ (m : ℕ) (w : Walk F),
      exploreLoop M logLstar (m + 1) w = trial M logLstar (exploreLoop M logLstar m w) := by
  intro m
  induction m with
  | zero => intro w; rfl
  | succ m ih =>
    intro w
    rw [exploreLoop, ih (trial M logLstar w)]
    rfl

theorem walkAfter_succ (M : MathFns F) (logLstar : F) (o : Object F)
    (rng : Mininest.Rand F) (j : ℕ) :
    o.walkAfter M logLstar rng (j + 1) = trial M logLstar (o.walkAfter M logLstar rng j) :=
  exploreLoop_succ_last M logLstar j _

theorem trial_obj_accepted (M : MathFns F) (logLstar : F) (w : Walk F)
    (h : (trialObject M w).logL > logLstar) :
    (trial M logLstar w).Obj = trialObject M w ∧
    (trial M logLstar w).accept = w.accept + 1 ∧ (trial M logLstar w).reject = w.reject := by
  unfold trial; simp only [if_pos h, and_self]

theorem trial_obj_rejected (M : MathFns F) (logLstar : F) (w : Walk F)
    (h : ¬ (trialObject M w).logL > logLstar) :
    (trial M logLstar w).Obj = w.Obj ∧
    (trial M logLstar w).accept = w.accept ∧ (trial M logLstar w).reject = w.reject + 1 := by
  unfold trial; simp only [if_neg h, and_self]

theorem walkAfter_rejected_range (M : MathFns F) (logLstar : F) (o : Object F)
    (rng : Mininest.Rand F) (a : ℕ) :
    ∀ b, a ≤ b →
      (∀ k, a ≤ k → k < b →
        ¬ (trialObject M (o.walkAfter M logLstar rng k)).logL > logLstar) →
      (o.walkAfter M logLstar rng b).Obj = (o.walkAfter M logLstar rng a).Obj := by
  intro b
  induction b with
  | zero => intro hab _; have : a = 0 := by omega
            subst this; rfl
  | succ b ih =>
    intro hab hrej
    rcases Nat.eq_or_lt_of_le hab with heq | hlt
    · rw [heq]
    · have hle : a ≤ b := by omega
      rw [walkAfter_succ, (trial_obj_rejected M logLstar _ (hrej b hle (by omega))).1]
      exact ih hle (fun k hk hkb => hrej k hk (by omega))

theorem walkAfter_above_from (M : MathFns F) (logLstar : F) (o : Object F)
    (rng : Mininest.Rand F) (i : ℕ)
    (hacc : (trialObject M (o.walkAfter M logLstar rng i)).logL > logLstar) :
    ∀ k, i < k → (o.walkAfter M logLstar rng k).Obj.logL > logLstar := by
  intro k
  induction k with
  | zero => intro h; omega
  | succ k ih =>
    intro hik
    rw [walkAfter_succ]
    by_cases htry : (trialObject M (o.walkAfter M logLstar rng k)).logL > logLstar
    · rw [(trial_obj_accepted M logLstar _ htry).1]; exact htry
    · rw [(trial_obj_rejected M logLstar _ htry).1]
      rcases Nat.eq_or_lt_of_le (Nat.lt_succ_iff.mp hik) with heq | hlt
      · exact absurd (heq ▸ hacc) htry
      · exact ih hlt

/-- C4: a trial of `Explore` is accepted exactly when the trial log-likelihood is
strictly above `logLstar` (then the object becomes the trial object and `accept` goes
up), and a rejected trial leaves the object unchanged (and `reject` goes up). `Explore`
returns the object of the walk after its 20 trials: when all of them are rejected that
is the object it started from; when some trial is accepted it is the trial object of the
last accepted trial, whose log-likelihood is strictly above `logLstar`. -/
theorem explore_accepts_iff_above_floor (M : MathFns F) (logLstar : F) (w : Walk F)
    (o : Object F) (rng : Mininest.Rand F) (j : ℕ) :
    ((trialObject M w).logL > logLstar →
      (trial M logLstar w).Obj = trialObject M w ∧
      (trial M logLstar w).accept = w.accept + 1 ∧ (trial M logLstar w).reject = w.reject) ∧
    (¬ (trialObject M w).logL > logLstar →
      (trial M logLstar w).Obj = w.Obj ∧
      (trial M logLstar w).accept = w.accept ∧ (trial M logLstar w).reject = w.reject + 1) ∧
    (o.walkAfter M logLstar rng 0).Obj = o ∧
    o.walkAfter M logLstar rng (j + 1) = trial M logLstar (o.walkAfter M logLstar rng j) ∧
    (o.Explore M logLstar rng).1 = (o.walkAfter M logLstar rng 20).Obj ∧
    ((∀ i, i < 20 → ¬ (trialObject M (o.walkAfter M logLstar rng i)).logL > logLstar) →
      (o.Explore M logLstar rng).1 = o) ∧
    (∀ i, i < 20 → (trialObject M (o.walkAfter M logLstar rng i)).logL > logLstar →
      (∀ k, i < k → k < 20 →
        ¬ (trialObject M (o.walkAfter M logLstar rng k)).logL > logLstar) →
      (o.Explore M logLstar rng).1 = trialObject M (o.walkAfter M logLstar rng i)) ∧
    ((∃ i, i < 20 ∧ (trialObject M (o.walkAfter M logLstar rng i)).logL > logLstar) →
      (o.Explore M logLstar rng).1.logL > logLstar) ∧
    ((o.Explore M logLstar rng).1 = o ∨ (o.Explore M logLstar rng).1.logL > logLstar) := by
  have hE : (o.Explore M logLstar rng).1 = (o.walkAfter M logLstar rng 20).Obj := rfl
  refine ⟨trial_obj_accepted M logLstar w, trial_obj_rejected M logLstar w, rfl,
    walkAfter_succ M logLstar o rng j, hE, fun hrej => ?_, fun i hi hacc hrej => ?_,
    fun hex => ?_, ?_⟩
  · rw [hE, walkAfter_rejected_range M logLstar o rng 0 20 (by omega)
      (fun k _ hk => hrej k hk)]
    rfl
  · rw [hE, walkAfter_rejected_range M logLstar o rng (i + 1) 20 (by omega)
      (fun k hk hk20 => hrej k (by omega) hk20), walkAfter_succ]
    exact (trial_obj_accepted M logLstar _ hacc).1
  · obtain ⟨i, hi, hacc⟩ := hex
    rw [hE]
    exact walkAfter_above_from M logLstar o rng i hacc 20 hi
  · exact exploreLoop_unchanged_or_above M logLstar o 20 _ (Or.inl rfl)

end walk2

theorem example_explore :
    ((sampled realMath 0.2 0.5).Explore realMath (sampled realMath 0.2 0.005).logL
        { draws := (exampleRand : Mininest.Rand ℝ).draws, pos := 1 }).1
      = { u := 0.2, v := 0.55, x := -1.2, y := 1.1, logL := logLhood realMath (-1.2) 1.1 } := by
  have hfloor : (sampled realMath 0.2 0.005).logL = logLhood realMath (-1.2) 0.01 := by
    rw [sampled_eq]; norm_num
  have hacc : logLhood realMath (-1.2) 0.01 < logLhood realMath (-1.2) 1.1 := by
    apply logLhood_lt _ _ _ (by norm_num) (by norm_num)
    intro d hd
    have := D_far d hd
    norm_num at this ⊢
    linarith
  unfold Object.Explore Object.ExploreWalk
  simp only []
  rw [show (20 : ℕ) = 19 + 1 from rfl, exploreLoop]
  have htrial : trial realMath (sampled realMath 0.2 0.005).logL
      { Obj := sampled realMath 0.2 0.5, step := 0.1, accept := 0, reject := 0,
        rng := { draws := (exampleRand : Mininest.Rand ℝ).draws, pos := 1 } }
      = { Obj := { u := 0.2, v := 0.55, x := -1.2, y := 1.1,
                   logL := logLhood realMath (-1.2) 1.1 },
          step := refineStep realMath 0.1 1 0, accept := 1, reject := 0,
          rng := { draws := (exampleRand : Mininest.Rand ℝ).draws, pos := 3 } } := by
    unfold trial
    simp only [example_first_trial, hfloor]
    rw [if_pos hacc]
    simp [Rand.Float64]
  rw [htrial]
  refine (exploreLoop_half realMath _ 19 _ ?_ ?_ ?_ ?_).1
  · simp only [Object.Consistent, and_true]
    constructor <;> norm_num
  · norm_num
  · norm_num
  · intro i hi
    simp only [exampleRand] at hi ⊢
    rw [if_neg (by omega), if_neg (by omega)]

theorem example_aCopy : aCopyOf 2 (0.25 : ℝ) = 0 := by
  unfold aCopyOf goInt
  norm_num

theorem example_findWorst :
    findWorst (impl realMath) (exampleHeap realMath) [0, 1] = 1 := by
  have h := example_logL_lt
  simp only [findWorst, List.enum, List.enumFrom, worstLoop, impl, Object.LogL, exampleHeap,
    List.getD_cons_zero, lt_self_iff_false, if_false]
  simp [h]

theorem example_valid (i : ℕ) :
    0 ≤ (exampleRand : Mininest.Rand ℝ).draws i ∧ (exampleRand : Mininest.Rand ℝ).draws i < 1 := by
  simp only [exampleRand]
  split_ifs <;> norm_num

theorem example_iteration :
    ∃ s1 r, iteration realMath (impl realMath) 2 1 (exampleState realMath) = .ok (s1, r) ∧
      s1.Obj = [0, 0] ∧ r.Sample = 2 ∧
      s1.heap 0 = { u := 0.2, v := 0.55, x := -1.2, y := 1.1,
                    logL := logLhood realMath (-1.2) 1.1 } ∧
      s1.heap 2 = sampled realMath 0.2 0.005 := by
  have hw : findWorst (impl realMath) (exampleState realMath).heap (exampleState realMath).Obj
      = 1 := example_findWorst
  obtain ⟨s1, r, h⟩ := iteration_ok realMath (impl realMath) 1 (exampleState realMath)
    (by simp [exampleState, SamplingInit]) (fun _ i => example_valid i)
    (fun _ => ⟨0, by omega, by
      rw [hw]
      simp only [exampleState, SamplingInit, exampleRand, List.length_cons, List.length_nil]
      norm_num [aCopyOf, goInt]⟩)
  have hlen : (exampleState realMath).Obj.length = 2 := rfl
  rw [hlen] at h
  obtain ⟨_, _, _, _, hS, _, _, _, _, rng1, hrep, _, hheap, _⟩ :=
    iteration_spec realMath (impl realMath) 2 1 (exampleState realMath) s1 r h
  rw [hw] at hrep hheap
  obtain ⟨a, ha, hlt, _, hO, j, hj, haj, hrng, _⟩ :=
    replaceWorst_spec 2 1 1 _ _ _ _ (by omega) hrep
  have hj0 : j = 0 := by omega
  subst hj0
  have ha0 : a = 0 := by
    rw [hlen] at hlt; omega
  subst ha0
  have hObj : s1.Obj = [0, 0] := by rw [hO]; rfl
  have h1 : (exampleState realMath).Obj.getD 1 0 = 1 := rfl
  have h2 : (exampleState realMath).next = 2 := rfl
  have h3 : ([0, 0] : List Ptr).getD 1 0 = 0 := rfl
  have h4 : (exampleState realMath).rng.draws = (exampleRand : Mininest.Rand ℝ).draws := rfl
  have h5 : (exampleState realMath).rng.pos = 0 := rfl
  rw [hObj, h1, h2, h3] at hheap
  refine ⟨s1, r, h, hObj, hS, ?_, ?_⟩
  · rw [hheap, Function.update_same, Function.update_noteq (by decide),
      Function.update_noteq (by decide), hrng, h4, h5]
    have h6 : (exampleState realMath).heap 0 = sampled realMath 0.2 0.5 := rfl
    have h7 : (exampleState realMath).heap 1 = sampled realMath 0.2 0.005 := rfl
    rw [h6, h7]
    simp only [impl, Object.LogL, zero_add]
    exact example_explore
  · rw [hheap, Function.update_noteq (by decide), Function.update_same]
    rfl

end Lighthouse

/-! ### Claims about one pass -/

namespace Mininest
open Lighthouse

section claims
variable {F : Type} [LinearOrderedField F] [FloorRing F]

/-- C9: for `n > 1` and a draw `r` in `[0, 1)` the candidate index `int(n*r) % n` lies
in `[0, n)`, and the index `a` whose slot is copied into `Obj[worst]` differs from
`worst`: it is the first drawn candidate that is not `worst`. -/
theorem survivor_index_in_range_and_distinct (n worst fuel : ℕ) (Obj Obj1 : List Ptr)
    (rng rng1 : Rand F) (r : F) (hn : 1 < n) (hr0 : 0 ≤ r) (hr1 : r < 1)
    (hrun : replaceWorst n worst fuel Obj rng = .ok (Obj1, rng1)) :
    (0 ≤ aCopyOf n r ∧ aCopyOf n r < n) ∧
    ∃ a : ℕ, a ≠ worst ∧ a < Obj.length ∧ Obj1 = Obj.set worst (Obj.getD a 0) ∧
      ∃ j, (a : ℤ) = aCopyOf n (rng.draws (rng.pos + j)) ∧ rng1.pos = rng.pos + j + 1 ∧
        ∀ i, i < j → aCopyOf n (rng.draws (rng.pos + i)) = (worst : ℤ) := by
  obtain ⟨hfl, h0, h1⟩ := aCopyOf_eq_floor n r hr0 hr1 (by omega)
  obtain ⟨a, ha, hlt, _, hO, j, _, haj, hrng, hprev⟩ :=
    replaceWorst_spec n worst fuel Obj Obj1 rng rng1 hn hrun
  refine ⟨⟨by rw [hfl]; exact h0, by rw [hfl]; exact h1⟩, a, ha, hlt, hO, j, haj, ?_, hprev⟩
  rw [hrng]

theorem survivor_index_in_range_and_distinct_witness :
    (1 < 2) ∧ (0 ≤ (0.25 : ℝ)) ∧ ((0.25 : ℝ) < 1) ∧
    replaceWorst 2 1 1 [0, 1] (exampleRand : Rand ℝ)
      = .ok ([0, 0], { draws := (exampleRand : Rand ℝ).draws, pos := 1 }) ∧
    ((0 ≤ aCopyOf 2 (0.25 : ℝ) ∧ aCopyOf 2 (0.25 : ℝ) < (2 : ℕ)) ∧
    ∃ a : ℕ, a ≠ 1 ∧ a < ([0, 1] : List Ptr).length ∧
      ([0, 0] : List Ptr) = ([0, 1] : List Ptr).set 1 (([0, 1] : List Ptr).getD a 0) ∧
      ∃ j, (a : ℤ) = aCopyOf 2 ((exampleRand : Rand ℝ).draws ((exampleRand : Rand ℝ).pos + j)) ∧
        (1 : ℕ) = (exampleRand : Rand ℝ).pos + j + 1 ∧
        ∀ i, i < j →
          aCopyOf 2 ((exampleRand : Rand ℝ).draws ((exampleRand : Rand ℝ).pos + i))
            = ((1 : ℕ) : ℤ)) := by
  have hrun : replaceWorst 2 1 1 [0, 1] (exampleRand : Rand ℝ)
      = .ok ([0, 0], { draws := (exampleRand : Rand ℝ).draws, pos := 1 }) := by
    have ha : aCopyOf 2 ((exampleRand : Rand ℝ).draws 0) = 0 := example_aCopy
    simp [replaceWorst, drawSurvivor, Rand.Float64, sliceGet, sliceSet, exampleRand] at ha ⊢
    simp [ha]
  exact ⟨by decide, by norm_num, by norm_num, hrun,
    survivor_index_in_range_and_distinct 2 1 1 [0, 1] [0, 0] exampleRand _ 0.25
      (by decide) (by norm_num) (by norm_num) hrun⟩

/-- C8: the `Sample` of the emitted `Result` is a new object, not a slot of the
population before or after the pass; after the replacement and `Explore` of the pass it
still holds the state the worst object had when it was selected, and its `LogL` is the
floor with which `Explore` was run. No later pass changes it or puts it in a slot. -/
theorem sample_is_detached_copy (M : MathFns F) (n fuel : ℕ)
    (s s1 : State F (Lighthouse.Object F)) (r : Result F)
    (hwf : ∀ p, p ∈ s.Obj → p < s.next)
    (h : iteration M (impl M) n fuel s = .ok (s1, r)) :
    r.Sample ∉ s.Obj ∧ r.Sample ∉ s1.Obj ∧
    s1.heap r.Sample = s.heap (s.Obj.getD (findWorst (impl M) s.heap s.Obj) 0) ∧
    (∃ rng1, s1.heap (s1.Obj.getD (findWorst (impl M) s.heap s.Obj) 0)
      = ((s.heap (s1.Obj.getD (findWorst (impl M) s.heap s.Obj) 0)).Explore M
          (s1.heap r.Sample).LogL rng1).1) ∧
    ∀ k sk rs, loop M (impl M) n fuel k s1 = .ok (sk, rs) →
      sk.heap r.Sample = s1.heap r.Sample ∧ r.Sample ∉ sk.Obj := by
  obtain ⟨hw, _, _, _, hS, _, _, _, _, rng1, hrep, hw1, hheap, _⟩ :=
    iteration_spec M (impl M) n fuel s s1 r h
  obtain ⟨hwf1, _, hnext, _⟩ := iteration_frame M (impl M) n fuel s s1 r hwf h
  obtain ⟨_, hsub⟩ := replaceWorst_subset n _ fuel s.Obj s1.Obj s.rng rng1 hrep
  have hfresh : ∀ p, p ∈ s.Obj → p ≠ s.next := fun p hp => Nat.ne_of_lt (hwf p hp)
  have hwne := hfresh _ (getD_mem hw)
  have hpne := hfresh _ (hsub _ (getD_mem hw1))
  have h1 : r.Sample ∉ s.Obj := fun hmem => hfresh _ hmem hS
  have h2 : r.Sample ∉ s1.Obj := fun hmem => hfresh _ (hsub _ hmem) hS
  have h3 : s1.heap r.Sample = s.heap (s.Obj.getD (findWorst (impl M) s.heap s.Obj) 0) := by
    rw [hheap, hS, Function.update_noteq hpne.symm, Function.update_same]
    rfl
  refine ⟨h1, h2, h3, ⟨rng1, ?_⟩, fun k sk rs hl => ?_⟩
  · rw [h3]
    rw [hheap, Function.update_same, Function.update_noteq hwne, Function.update_noteq hpne]
    rfl
  · exact loop_frame M (impl M) n fuel k s1 sk rs hwf1 hl r.Sample
      (by rw [hS, hnext]; exact Nat.lt_succ_self _) h2

theorem sample_is_detached_copy_witness :
    (∀ p, p ∈ (exampleState realMath).Obj → p < (exampleState realMath).next) ∧
    ∃ s1 r, iteration realMath (impl realMath) 2 1 (exampleState realMath) = .ok (s1, r) ∧
      r.Sample ∉ (exampleState realMath).Obj ∧ r.Sample ∉ s1.Obj ∧
      s1.heap r.Sample = (exampleState realMath).heap ((exampleState realMath).Obj.getD
        (findWorst (impl realMath) (exampleState realMath).heap (exampleState realMath).Obj) 0) := by
  have hwf : ∀ p, p ∈ (exampleState realMath).Obj → p < (exampleState realMath).next := by
    intro p hp
    simp only [exampleState, SamplingInit, List.mem_cons, List.mem_singleton,
      List.not_mem_nil, or_false] at hp ⊢
    rcases hp with h | h <;> rw [h] <;> decide
  obtain ⟨s1, r, h, _⟩ := example_iteration
  have hc := sample_is_detached_copy realMath 2 1 (exampleState realMath) s1 r hwf h
  exact ⟨hwf, s1, r, h, hc.1, hc.2.1, hc.2.2.1⟩

end claims

end Mininest

namespace Mininest
open Lighthouse

section claims2
variable {F α : Type} [LinearOrderedField F] [FloorRing F]

theorem findWorst_first_minimum_witness :
    (exampleState realMath).Obj ≠ [] ∧
    (findWorst (impl realMath) (exampleState realMath).heap (exampleState realMath).Obj
        < (exampleState realMath).Obj.length ∧
      (∀ i, i < (exampleState realMath).Obj.length →
        ¬ (impl realMath).LogL ((exampleState realMath).heap ((exampleState realMath).Obj.getD i 0))
          < (impl realMath).LogL ((exampleState realMath).heap ((exampleState realMath).Obj.getD
              (findWorst (impl realMath) (exampleState realMath).heap
                (exampleState realMath).Obj) 0))) ∧
      (∀ i, i < findWorst (impl realMath) (exampleState realMath).heap
            (exampleState realMath).Obj →
        (impl realMath).LogL ((exampleState realMath).heap ((exampleState realMath).Obj.getD
              (findWorst (impl realMath) (exampleState realMath).heap
                (exampleState realMath).Obj) 0))
          < (impl realMath).LogL
              ((exampleState realMath).heap ((exampleState realMath).Obj.getD i 0)))) :=
  ⟨by simp [exampleState, SamplingInit],
    findWorst_first_minimum (impl realMath) (exampleState realMath).heap
      (exampleState realMath).Obj (by simp [exampleState, SamplingInit])⟩

theorem single_object_explored_directly_witness :
    (exampleSingle realMath).Obj = [0] ∧ 0 < (exampleSingle realMath).next ∧
    ∃ s1 r, iteration realMath (impl realMath) 1 0 (exampleSingle realMath) = .ok (s1, r) ∧
      s1.Obj = [0] ∧
      s1.heap 0 = ((impl realMath).Explore
        ((impl realMath).LogL ((exampleSingle realMath).heap 0))
        ((exampleSingle realMath).heap 0) (exampleSingle realMath).rng).1 ∧
      s1.rng = ((impl realMath).Explore
        ((impl realMath).LogL ((exampleSingle realMath).heap 0))
        ((exampleSingle realMath).heap 0) (exampleSingle realMath).rng).2 :=
  ⟨rfl, by decide,
    single_object_explored_directly realMath (impl realMath) 0 (exampleSingle realMath) 0 rfl
      (by decide)⟩

/-- With more than one object, the slot `worst` receives the address held by the slot of
a survivor `a`, which keeps it: the two slots then denote one object, and it is that
object which `Explore` changes. -/
theorem worst_slot_shares_survivor (M : MathFns F) (O : Object F α) (n fuel : ℕ)
    (s s1 : State F α) (r : Result F) (hn : n > 1)
    (hwf : ∀ p, p ∈ s.Obj → p < s.next)
    (h : iteration M O n fuel s = .ok (s1, r)) :
    ∃ a : ℕ, a ≠ findWorst O s.heap s.Obj ∧ a < s.Obj.length ∧
      s1.Obj.getD (findWorst O s.heap s.Obj) 0 = s.Obj.getD a 0 ∧
      s1.Obj.getD a 0 = s.Obj.getD a 0 ∧
      ∃ rng1, s1.heap (s.Obj.getD a 0)
        = (O.Explore (O.LogL (s.heap (s.Obj.getD (findWorst O s.heap s.Obj) 0)))
            (s.heap (s.Obj.getD a 0)) rng1).1 := by
  obtain ⟨hw, _, _, _, _, _, _, _, _, rng1, hrep, _, hheap, _⟩ :=
    iteration_spec M O n fuel s s1 r h
  obtain ⟨a, ha, hlt, _, hO, _⟩ := replaceWorst_spec n _ fuel s.Obj s1.Obj s.rng rng1 hn hrep
  have hfresh : ∀ p, p ∈ s.Obj → p ≠ s.next := fun p hp => Nat.ne_of_lt (hwf p hp)
  have hwne := hfresh _ (getD_mem hw)
  have hane := hfresh _ (getD_mem hlt)
  have hslot : s1.Obj.getD (findWorst O s.heap s.Obj) 0 = s.Obj.getD a 0 := by
    rw [hO, List.getD_eq_getElem?_getD, List.getElem?_set_self hw]
    rfl
  have hkeep : s1.Obj.getD a 0 = s.Obj.getD a 0 := by
    rw [hO, List.getD_eq_getElem?_getD, List.getElem?_set_ne (Ne.symm ha),
      ← List.getD_eq_getElem?_getD]
  refine ⟨a, ha, hlt, hslot, hkeep, rng1, ?_⟩
  rw [hheap, hslot, Function.update_same, Function.update_noteq hwne,
    Function.update_noteq hane]

/-- C3: in the example population of two lighthouse objects the pass selects index 1 as
worst and index 0 as survivor; afterwards both slots hold the address of the survivor,
whose coordinate `v` went from `0.5` to `0.55`. The object at an index other than
`worst` is not left as it was. -/
theorem survivor_mutated_through_worst_slot :
    findWorst (impl realMath) (exampleState realMath).heap (exampleState realMath).Obj = 1 ∧
    (exampleState realMath).Obj = [0, 1] ∧
    ((exampleState realMath).heap 0).v = 0.5 ∧
    ∃ s1 r, iteration realMath (impl realMath) 2 1 (exampleState realMath) = .ok (s1, r) ∧
      s1.Obj = [0, 0] ∧ (s1.heap 0).v = 0.55 ∧
      s1.heap 0 ≠ (exampleState realMath).heap 0 := by
  obtain ⟨s1, r, h, hObj, _, hheap, _⟩ := example_iteration
  have hv : ((exampleState realMath).heap 0).v = 0.5 := rfl
  refine ⟨example_findWorst, rfl, hv, s1, r, h, hObj, by rw [hheap], ?_⟩
  intro hcon
  have : (s1.heap 0).v = ((exampleState realMath).heap 0).v := by rw [hcon]
  rw [hheap, hv] at this
  norm_num at this

end claims2

end Mininest

/-! ### Runs of several passes -/

namespace Mininest
open Lighthouse

section runs
variable {F α : Type} [LinearOrderedField F] [FloorRing F]

theorem loop_snoc (M : MathFns F) (O : Object F α) (n fuel : ℕ) :
    ∀ (k : ℕ) (s s2 : State F α) (rs : List (Result F)),
      loop M O n fuel (k + 1) s = .ok (s2, rs) →
      ∃ sk rsk r, loop M O n fuel k s = .ok (sk, rsk) ∧
        iteration M O n fuel sk = .ok (s2, r) ∧ rs = rsk ++ [r] := by
  intro k
  induction k with
  | zero =>
    intro s s2 rs h
    obtain ⟨s1, r, rs1, hit, hl, hrs⟩ := loop_succ_ok M O n fuel 0 s s2 rs h
    simp only [loop, Except.ok.injEq, Prod.mk.injEq] at hl
    refine ⟨s, [], r, rfl, ?_, ?_⟩
    · rw [hit, hl.1]
    · rw [hrs, ← hl.2]; rfl
  | succ k ih =>
    intro s s2 rs h
    obtain ⟨s1, r, rs1, hit, hl, hrs⟩ := loop_succ_ok M O n fuel (k + 1) s s2 rs h
    obtain ⟨sk, rsk, r2, hk, hit2, hrs2⟩ := ih s1 s2 rs1 hl
    exact ⟨sk, r :: rsk, r2, loop_succ_of M O n fuel k s s1 sk r rsk hit hk, hit2,
      by rw [hrs, hrs2]; rfl⟩

theorem loop_length_logwidth (M : MathFns F) (O : Object F α) (n fuel : ℕ) :
    ∀ (k : ℕ) (s sk : State F α) (rs : List (Result F)),
      loop M O n fuel k s = .ok (sk, rs) →
      rs.length = k ∧ sk.logwidth = s.logwidth - (k : F) / (n : F) := by
  intro k
  induction k with
  | zero =>
    intro s sk rs h
    simp only [loop, Except.ok.injEq, Prod.mk.injEq] at h
    rw [← h.1, ← h.2]
    simp
  | succ k ih =>
    intro s sk rs h
    obtain ⟨s1, r, rs1, hit, hl, hrs⟩ := loop_succ_ok M O n fuel k s sk rs h
    obtain ⟨hlen, hw⟩ := ih s1 sk rs1 hl
    obtain ⟨_, _, _, _, _, _, _, hw1, _⟩ := iteration_spec M O n fuel s s1 r hit
    refine ⟨by rw [hrs, List.length_cons, hlen], ?_⟩
    rw [hw, hw1]
    push_cast
    ring

/-- C7: the `LogWt` of the `k`-th `Result` (counting from 0) is `logwidth + L`, where `L`
is the `LogL` of the worst object of that pass and `logwidth` is
`log (1 - exp (-1/N)) - k/N`. -/
theorem logWt_eq_logwidth_add_worst (M : MathFns F) (O : Object F α) (fuel k : ℕ)
    (Obj : List Ptr) (heap : Ptr → α) (next : Ptr) (rng : Rand F) (s2 : State F α)
    (rs : List (Result F))
    (h : Sampling M O fuel (k + 1) Obj heap next rng = .ok (s2, rs)) :
    ∃ sk rsk r, Sampling M O fuel k Obj heap next rng = .ok (sk, rsk) ∧
      iteration M O Obj.length fuel sk = .ok (s2, r) ∧ rs = rsk ++ [r] ∧
      rs[k]? = some r ∧
      sk.logwidth = M.Log (1 - M.Exp (-1 / (Obj.length : F))) - (k : F) / (Obj.length : F) ∧
      r.LogWt = (M.Log (1 - M.Exp (-1 / (Obj.length : F))) - (k : F) / (Obj.length : F))
        + O.LogL (sk.heap (sk.Obj.getD (findWorst O sk.heap sk.Obj) 0)) := by
  unfold Sampling at h ⊢
  obtain ⟨sk, rsk, r, hk, hit, hrs⟩ := loop_snoc M O Obj.length fuel k _ s2 rs h
  obtain ⟨hlen, hw⟩ := loop_length_logwidth M O Obj.length fuel k _ sk rsk hk
  obtain ⟨_, hWt, _⟩ := iteration_spec M O Obj.length fuel sk s2 r hit
  have hw0 : sk.logwidth
      = M.Log (1 - M.Exp (-1 / (Obj.length : F))) - (k : F) / (Obj.length : F) := by
    rw [hw]; rfl
  refine ⟨sk, rsk, r, hk, hit, hrs, ?_, hw0, ?_⟩
  · rw [hrs, ← hlen]; simp
  · rw [hWt, hw0]

end runs

section evidence

theorem le_plus_real (x y : ℝ) : x ≤ plus realMath x y ∧ y ≤ plus realMath x y := by
  rw [plus_real]
  have hx := Real.exp_pos x
  have hy := Real.exp_pos y
  constructor
  · calc x = Real.log (Real.exp x) := (Real.log_exp x).symm
      _ ≤ Real.log (Real.exp x + Real.exp y) := Real.log_le_log hx (by linarith)
  · calc y = Real.log (Real.exp y) := (Real.log_exp y).symm
      _ ≤ Real.log (Real.exp x + Real.exp y) := Real.log_le_log hy (by linarith)

theorem plus_real_le (x y : ℝ) : plus realMath x y ≤ y + Real.exp (x - y) := by
  rw [plus_real]
  have hy := Real.exp_pos y
  have h1 : Real.exp x + Real.exp y = Real.exp y * (1 + Real.exp (x - y)) := by
    have h3 : Real.exp y * Real.exp (x - y) = Real.exp x := by
      rw [← Real.exp_add]
      congr 1
      ring
    rw [mul_add, mul_one, h3, add_comm]
  have h2 : (0 : ℝ) < 1 + Real.exp (x - y) := by positivity
  rw [h1, Real.log_mul hy.ne' h2.ne', Real.log_exp]
  have := Real.log_le_sub_one_of_pos h2
  linarith

variable {α : Type}

theorem loop_logZ_mono (O : Object ℝ α) (n fuel : ℕ) :
    ∀ (k : ℕ) (s sk : State ℝ α) (rs : List (Result ℝ)),
      loop realMath O n fuel k s = .ok (sk, rs) →
      (∀ r, rs.head? = some r → s.logZ ≤ r.LogZ) ∧
      (∀ i (hi : i + 1 < rs.length), rs[i].LogZ ≤ rs[i + 1].LogZ) := by
  intro k
  induction k with
  | zero =>
    intro s sk rs h
    simp only [loop, Except.ok.injEq, Prod.mk.injEq] at h
    rw [← h.2]
    simp
  | succ k ih =>
    intro s sk rs h
    obtain ⟨s1, r, rs1, hit, hl, hrs⟩ := loop_succ_ok realMath O n fuel k s sk rs h
    obtain ⟨hhead, hpairs⟩ := ih s1 sk rs1 hl
    obtain ⟨_, _, hZ, _, _, _, hZ1, _⟩ := iteration_spec realMath O n fuel s s1 r hit
    subst hrs
    constructor
    · intro r0 hr0
      simp only [List.head?_cons, Option.some.injEq] at hr0
      rw [← hr0, hZ]
      exact (le_plus_real _ _).1
    · intro i hi
      rcases Nat.eq_zero_or_pos i with h0 | h0
      · subst h0
        simp only [List.length_cons] at hi
        have hpos : 0 < rs1.length := by omega
        have := hhead (rs1[0]) (by rw [List.head?_eq_head (List.ne_nil_of_length_pos hpos)]; simp [List.head_eq_getElem])
        simpa [hZ1] using this
      · obtain ⟨j, rfl⟩ : ∃ j, i = j + 1 := ⟨i - 1, by omega⟩
        simp only [List.length_cons] at hi
        simpa using hpairs j (by omega)

/-- C5: the `LogZ` values of the `Result`s sent by a run of `Sampling` are
non-decreasing, and the first one is at least the initial `logZ`. -/
theorem logZ_nondecreasing (O : Object ℝ α) (fuel k : ℕ) (Obj : List Ptr) (heap : Ptr → α)
    (next : Ptr) (rng : Rand ℝ) (sk : State ℝ α) (rs : List (Result ℝ))
    (h : Sampling realMath O fuel k Obj heap next rng = .ok (sk, rs)) :
    (∀ r, rs.head? = some r → (SamplingInit realMath Obj heap next rng).logZ ≤ r.LogZ) ∧
    (∀ i (hi : i + 1 < rs.length), rs[i].LogZ ≤ rs[i + 1].LogZ) :=
  loop_logZ_mono O Obj.length fuel k _ sk rs h

end evidence

end Mininest

/-! ### The example run -/

namespace Lighthouse
open Mininest

section walk3
variable {F : Type} [LinearOrderedField F] [FloorRing F]

theorem exploreLoop_rng (M : MathFns F) (logLstar : F) :
    ∀ (m : ℕ) (w : Walk F),
      (exploreLoop M logLstar m w).rng = { draws := w.rng.draws, pos := w.rng.pos + 2 * m } := by
  intro m
  induction m with
  | zero => intro w; simp [exploreLoop]
  | succ m ih =>
    intro w
    have ht : (trial M logLstar w).rng = { draws := w.rng.draws, pos := w.rng.pos + 2 } := by
      unfold trial
      simp only []
      split <;> simp [Rand.Float64]
    unfold exploreLoop
    rw [ih, ht]
    simp only [Rand.mk.injEq, true_and]
    omega

theorem Explore_rng (M : MathFns F) (logLstar : F) (o : Object F) (rng : Mininest.Rand F) :
    (o.Explore M logLstar rng).2 = { draws := rng.draws, pos := rng.pos + 40 } := by
  unfold Object.Explore Object.ExploreWalk
  simp only [exploreLoop_rng]

theorem iteration_rng (M : MathFns F) (n fuel : ℕ) (s s1 : State F (Object F))
    (r : Result F) (h : iteration M (impl M) n fuel s = .ok (s1, r)) :
    s1.rng.draws = s.rng.draws ∧ s.rng.pos + 40 ≤ s1.rng.pos := by
  obtain ⟨_, _, _, _, _, _, _, _, _, rng1, hrep, _, _, hrng⟩ :=
    iteration_spec M (impl M) n fuel s s1 r h
  have hE : ∀ fl o, ((impl M).Explore fl o rng1).2
      = { draws := rng1.draws, pos := rng1.pos + 40 } := fun fl o => Explore_rng M fl o rng1
  rw [hE] at hrng
  have h1 : rng1.draws = s.rng.draws ∧ s.rng.pos ≤ rng1.pos := by
    by_cases hn : n > 1
    · obtain ⟨_, _, _, _, _, j, _, _, hr, _⟩ := replaceWorst_spec n _ fuel _ _ _ _ hn hrep
      rw [hr]
      exact ⟨rfl, by simp only []; omega⟩
    · rw [replaceWorst_single _ _ _ _ _ hn] at hrep
      simp only [Except.ok.injEq, Prod.mk.injEq] at hrep
      rw [← hrep.2]
      exact ⟨rfl, le_refl _⟩
  rw [hrng]
  exact ⟨h1.1, by simp only []; omega⟩

end walk3

theorem example_two_passes :
    ∃ s2 rs, Sampling realMath (impl realMath) 1 2 [0, 1] (exampleHeap realMath) 2
      (exampleRand : Mininest.Rand ℝ) = .ok (s2, rs) := by
  obtain ⟨s1, r, h, hObj, _⟩ := example_iteration
  obtain ⟨hdr, hpos⟩ := iteration_rng realMath 2 1 _ s1 r h
  have hdr1 : s1.rng.draws = (exampleRand : Mininest.Rand ℝ).draws := hdr
  have hw : findWorst (impl realMath) s1.heap s1.Obj = 0 := by
    rw [hObj]
    simp [findWorst, worstLoop, List.enum, List.enumFrom]
  have hlen : s1.Obj.length = 2 := by rw [hObj]; rfl
  obtain ⟨s2, r2, h2⟩ := iteration_ok realMath (impl realMath) 1 s1
    (by rw [hObj]; simp) (fun _ i => by rw [hdr1]; exact example_valid i)
    (fun _ => ⟨0, by omega, by
      rw [hw, hlen, hdr1]
      have hd : (exampleRand : Mininest.Rand ℝ).draws (s1.rng.pos + 0) = 0.5 := by
        simp only [exampleRand]
        rw [if_neg (by omega), if_neg (by omega)]
      rw [hd]
      norm_num [aCopyOf, goInt]
      decide⟩)
  rw [hlen] at h2
  refine ⟨s2, [r, r2], ?_⟩
  unfold Sampling
  exact loop_succ_of _ _ _ _ _ _ s1 s2 r [r2] h
    (loop_succ_of _ _ _ _ _ _ s2 s2 r2 [] h2 rfl)

end Lighthouse

/-! ### Claims about runs -/

namespace Mininest
open Lighthouse

theorem logZ_nondecreasing_witness :
    ∃ sk rs, Sampling realMath (impl realMath) 1 2 [0, 1] (exampleHeap realMath) 2
        (exampleRand : Rand ℝ) = .ok (sk, rs) ∧ rs.length = 2 ∧
      (∀ r, rs.head? = some r →
        (SamplingInit realMath [0, 1] (exampleHeap realMath) 2 (exampleRand : Rand ℝ)).logZ
          ≤ r.LogZ) ∧
      (∀ i (hi : i + 1 < rs.length), rs[i].LogZ ≤ rs[i + 1].LogZ) := by
  obtain ⟨sk, rs, h⟩ := example_two_passes
  exact ⟨sk, rs, h, (loop_length_logwidth _ _ _ _ _ _ _ _ h).1,
    logZ_nondecreasing (impl realMath) 1 2 [0, 1] (exampleHeap realMath) 2 exampleRand sk rs h⟩

theorem logWt_eq_logwidth_add_worst_witness :
    ∃ s2 rs, Sampling realMath (impl realMath) 1 (1 + 1) [0, 1] (exampleHeap realMath) 2
        (exampleRand : Rand ℝ) = .ok (s2, rs) ∧
      ∃ sk rsk r, Sampling realMath (impl realMath) 1 1 [0, 1] (exampleHeap realMath) 2
          (exampleRand : Rand ℝ) = .ok (sk, rsk) ∧
        iteration realMath (impl realMath) ([0, 1] : List Ptr).length 1 sk = .ok (s2, r) ∧
        rs = rsk ++ [r] ∧ rs[1]? = some r ∧
        sk.logwidth = realMath.Log (1 - realMath.Exp (-1 / ((([0, 1] : List Ptr).length : ℕ) : ℝ)))
          - ((1 : ℕ) : ℝ) / ((([0, 1] : List Ptr).length : ℕ) : ℝ) ∧
        r.LogWt = (realMath.Log (1 - realMath.Exp (-1 / ((([0, 1] : List Ptr).length : ℕ) : ℝ)))
          - ((1 : ℕ) : ℝ) / ((([0, 1] : List Ptr).length : ℕ) : ℝ))
          + (impl realMath).LogL (sk.heap (sk.Obj.getD
              (findWorst (impl realMath) sk.heap sk.Obj) 0)) := by
  obtain ⟨s2, rs, h⟩ := example_two_passes
  exact ⟨s2, rs, h,
    logWt_eq_logwidth_add_worst realMath (impl realMath) 1 1 [0, 1] (exampleHeap realMath) 2
      exampleRand s2 rs h⟩

end Mininest

/-! ### `GetArray` -/

namespace Mininest

section gather
variable {F : Type}

theorem gatherLoop_values (c : ℕ → Recv F) (vals : ℕ → Result F) (k : ℕ)
    (hc : ∀ t, t ≤ k → c t = .value (vals t)) :
    ∀ (fuel j : ℕ) (results : List (Result F)), j ≤ k → k + 1 ≤ fuel + j →
      gatherLoop c (k : ℤ) fuel j (j : ℤ) results
        = .ok (results ++ (List.range' j (k - j)).map vals, k + 1) := by
  intro fuel
  induction fuel with
  | zero => intro j results hj hf; omega
  | succ fuel ih =>
    intro j results hj hf
    rw [gatherLoop, hc j hj]
    simp only []
    by_cases hbrk : (j : ℤ) + 1 > (k : ℤ)
    · have hjk : j = k := by omega
      subst hjk
      rw [if_pos hbrk]
      simp
    · rw [if_neg hbrk]
      have hlt : j < k := by omega
      have := ih (j + 1) (results ++ [vals j]) (by omega) (by omega)
      rw [Nat.cast_add, Nat.cast_one] at this
      rw [this]
      have hr : List.range' j (k - j) = j :: List.range' (j + 1) (k - (j + 1)) := by
        have : k - j = (k - (j + 1)) + 1 := by omega
        rw [this, List.range'_succ]
      rw [hr]
      simp

theorem GetArray_values (c : ℕ → Recv F) (vals : ℕ → Result F) (k fuel : ℕ)
    (hk : 1 ≤ k) (hfuel : k < fuel) (hc : ∀ t, t ≤ k → c t = .value (vals t)) :
    GetArray fuel c (k : ℤ) = .ok ((List.range k).map vals, k + 1) := by
  have hg := gatherLoop_values c vals k hc fuel 0 [] (by omega) (by omega)
  simp only [Nat.cast_zero, List.nil_append, Nat.sub_zero] at hg
  rw [← List.range_eq_range'] at hg
  unfold GetArray
  rw [if_neg (by omega), hg]
  simp only [List.length_map, List.length_range]
  have hidx : (0 : ℤ) ≤ (k : ℤ) - 1 := by omega
  have hnat : ((k : ℤ) - 1).toNat = k - 1 := by omega
  unfold resultAt
  rw [if_pos hidx, hnat]
  have hlt : k - 1 < ((List.range k).map vals).length := by simp; omega
  rw [List.getElem?_eq_getElem hlt]

end gather

end Mininest

namespace Mininest

section gatherClaims
variable {F : Type}

/-- C14: asked for one `Result` on the example channel, `GetArray` receives two values
from the channel, not one, and returns the first. -/
theorem getArray_receives_two_for_one :
    GetArray 2 exampleChan 1 = .ok ([{ H := 0, LogZ := 0, LogWt := 0, Sample := 0 }], 2) := by
  have h := GetArray_values exampleChan
    (fun j => { H := 0, LogZ := 0, LogWt := 0, Sample := j }) 1 2 (by decide) (by decide)
    (fun t _ => rfl)
  exact h

/-- For `k ≥ 1` and an unbounded stream, `GetArray c k` receives exactly `k + 1` values
from the channel before it stops, whatever the fuel above `k`; it returns `k` of them. -/
theorem getArray_receives_one_more (c : ℕ → Recv F) (vals : ℕ → Result F) (k fuel : ℕ)
    (hk : 1 ≤ k) (hfuel : k < fuel) (hc : ∀ t, c t = .value (vals t)) :
    ∃ results, GetArray fuel c (k : ℤ) = .ok (results, k + 1) ∧ results.length = k :=
  ⟨(List.range k).map vals, GetArray_values c vals k fuel hk hfuel (fun t _ => hc t), by simp⟩

theorem getArray_receives_one_more_witness :
    (1 ≤ 3) ∧ (3 < 4) ∧
    (∀ t, exampleChan t = .value { H := 0, LogZ := 0, LogWt := 0, Sample := t }) ∧
    ∃ results, GetArray 4 exampleChan ((3 : ℕ) : ℤ) = .ok (results, 3 + 1) ∧
      results.length = 3 :=
  ⟨by decide, by decide, fun _ => rfl,
    getArray_receives_one_more exampleChan
      (fun j => { H := 0, LogZ := 0, LogWt := 0, Sample := j }) 3 4 (by decide) (by decide)
      (fun _ => rfl)⟩

/-- C15: for `k ≥ 1` and a stream that yields at least `k + 1` values, `GetArray c k`
returns a slice of length `k` holding the first `k` values in the order they were sent. -/
theorem getArray_returns_first_k (c : ℕ → Recv F) (vals : ℕ → Result F) (k fuel : ℕ)
    (hk : 1 ≤ k) (hfuel : k < fuel) (hc : ∀ t, t ≤ k → c t = .value (vals t)) :
    ∃ results received, GetArray fuel c (k : ℤ) = .ok (results, received) ∧
      results.length = k ∧ results = (List.range k).map vals ∧
      ∀ j, j < k → results[j]? = some (vals j) := by
  refine ⟨(List.range k).map vals, k + 1, GetArray_values c vals k fuel hk hfuel hc,
    by simp, rfl, fun j hj => ?_⟩
  simp [List.getElem?_range hj]

theorem getArray_returns_first_k_witness :
    (1 ≤ 3) ∧ (3 < 4) ∧
    (∀ t, t ≤ 3 → exampleChan t = .value { H := 0, LogZ := 0, LogWt := 0, Sample := t }) ∧
    ∃ results received, GetArray 4 exampleChan ((3 : ℕ) : ℤ) = .ok (results, received) ∧
      results.length = 3 ∧
      results = (List.range 3).map (fun j => { H := 0, LogZ := 0, LogWt := 0, Sample := j }) ∧
      ∀ j, j < 3 → results[j]? = some { H := 0, LogZ := 0, LogWt := 0, Sample := j } :=
  ⟨by decide, by decide, fun _ _ => rfl,
    getArray_returns_first_k exampleChan
      (fun j => { H := 0, LogZ := 0, LogWt := 0, Sample := j }) 3 4 (by decide) (by decide)
      (fun _ _ => rfl)⟩

/-- C20: with `iterations = 0` on a stream that yields a value, `GetArray` receives one
value, appends nothing, and panics on `results[len(results)-1]`; for `k ≥ 1` on an
unbounded stream that read is in range and `GetArray` returns. -/
theorem getArray_zero_panics (c : ℕ → Recv F) (r0 : Result F) (fuel : ℕ)
    (h0 : c 0 = .value r0) :
    gatherLoop c 0 (fuel + 1) 0 0 [] = .ok ([], 1) ∧
    resultAt ([] : List (Result F)) (((([] : List (Result F)).length : ℕ) : ℤ) - 1)
      = .error .indexOutOfRange ∧
    GetArray (fuel + 1) c 0 = .error .indexOutOfRange ∧
    ∀ (vals : ℕ → Result F) (k fuel1 : ℕ), 1 ≤ k → k < fuel1 →
      (∀ t, c t = .value (vals t)) →
      ∃ results received r, GetArray fuel1 c (k : ℤ) = .ok (results, received) ∧
        resultAt results ((results.length : ℤ) - 1) = .ok r := by
  have hg : gatherLoop c 0 (fuel + 1) 0 0 [] = .ok ([], 1) := by
    rw [gatherLoop, h0]
    simp
  have hr : resultAt ([] : List (Result F)) (((([] : List (Result F)).length : ℕ) : ℤ) - 1)
      = .error .indexOutOfRange := by
    simp [resultAt]
  refine ⟨hg, hr, ?_, ?_⟩
  · unfold GetArray
    rw [if_neg (by decide), hg]
    simp only []
    rw [hr]
  · intro vals k fuel1 hk hfuel hc
    have h := GetArray_values c vals k fuel1 hk hfuel (fun t _ => hc t)
    refine ⟨(List.range k).map vals, k + 1, vals (k - 1), h, ?_⟩
    have hidx : (0 : ℤ) ≤ (k : ℤ) - 1 := by omega
    have hnat : ((k : ℤ) - 1).toNat = k - 1 := by omega
    simp only [List.length_map, List.length_range]
    unfold resultAt
    rw [if_pos hidx, hnat]
    have hlt : k - 1 < k := by omega
    simp [List.getElem?_range hlt, hlt]

theorem getArray_zero_panics_witness :
    exampleChan 0 = .value { H := 0, LogZ := 0, LogWt := 0, Sample := 0 } ∧
    gatherLoop exampleChan 0 (0 + 1) 0 0 [] = .ok ([], 1) ∧
    GetArray (0 + 1) exampleChan 0 = .error .indexOutOfRange ∧
    ∃ results received r, GetArray 4 exampleChan ((3 : ℕ) : ℤ) = .ok (results, received) ∧
      resultAt results ((results.length : ℤ) - 1) = .ok r := by
  have h := getArray_zero_panics exampleChan
    { H := 0, LogZ := 0, LogWt := 0, Sample := 0 } 0 rfl
  exact ⟨rfl, h.1, h.2.2.1,
    h.2.2.2 (fun j => { H := 0, LogZ := 0, LogWt := 0, Sample := j }) 3 4 (by decide)
      (by decide) (fun _ => rfl)⟩

end gatherClaims

end Mininest

/-! ### Claims about the lighthouse object -/

namespace Lighthouse
open Mininest

section explore
variable {F : Type} [LinearOrderedField F] [FloorRing F]

theorem exploreLoop_obj_inv (M : MathFns F) (logLstar : F) (P : Object F → Prop)
    (hT : ∀ w : Walk F, P (trialObject M w)) :
    ∀ (m : ℕ) (w : Walk F), P w.Obj → P (exploreLoop M logLstar m w).Obj := by
  intro m
  induction m with
  | zero => intro w h; exact h
  | succ m ih =>
    intro w h
    unfold exploreLoop
    apply ih
    unfold trial
    simp only []
    split
    · exact hT w
    · exact h

theorem trialObject_consistent (M : MathFns F) (w : Walk F) :
    (trialObject M w).Consistent M :=
  ⟨rfl, rfl, rfl⟩

/-- C13: the object returned by `SampleFromPrior` has an up-to-date cache
(`x = 4u - 2`, `y = 2v`, `logL = logLhood x y`), and `Explore` and `Copy` give an object
with an up-to-date cache when applied to one. -/
theorem cache_never_stale (M : MathFns F) (logLstar : F) (o : Object F)
    (rng rng0 : Mininest.Rand F) (ho : o.Consistent M) :
    (SampleFromPrior M rng0).1.Consistent M ∧
    (o.Explore M logLstar rng).1.Consistent M ∧
    o.Copy.Consistent M :=
  ⟨⟨rfl, rfl, rfl⟩,
    exploreLoop_obj_inv M logLstar (fun p => p.Consistent M) (trialObject_consistent M) 20 _ ho,
    ho⟩

end explore

theorem sampled_consistent {F : Type} [LinearOrderedField F] (M : MathFns F) (u v : F) :
    (sampled M u v).Consistent M := by
  rw [sampled_eq]
  simp only [Object.Consistent, and_self]

theorem cache_never_stale_witness :
    (sampled realMath 0.2 0.5).Consistent realMath ∧
    ((SampleFromPrior realMath (exampleRand : Mininest.Rand ℝ)).1.Consistent realMath ∧
      ((sampled realMath 0.2 0.5).Explore realMath 0 exampleRand).1.Consistent realMath ∧
      (sampled realMath 0.2 0.5).Copy.Consistent realMath) :=
  ⟨sampled_consistent realMath 0.2 0.5,
    cache_never_stale realMath 0 (sampled realMath 0.2 0.5) exampleRand exampleRand
      (sampled_consistent realMath 0.2 0.5)⟩

/-- C11: starting from `0.1`, the step size is strictly positive after any number of
trials of `Explore`; a trial multiplies it by `exp (1/accept)` when `accept > reject`,
divides it by `exp (1/reject)` when `reject > accept`, and leaves it alone when the
counters are equal, which keeps a positive step positive. -/
theorem step_stays_positive (logLstar step : ℝ) (o : Object ℝ) (rng : Mininest.Rand ℝ)
    (m accept reject : ℕ) (w : Walk ℝ) :
    0 < (exploreLoop realMath logLstar m
          { Obj := o, step := 0.1, accept := 0, reject := 0, rng := rng }).step ∧
    (accept > reject →
      refineStep realMath step accept reject = step * Real.exp (1 / (accept : ℝ))) ∧
    (reject > accept →
      refineStep realMath step accept reject = step / Real.exp (1 / (reject : ℝ))) ∧
    (accept = reject → refineStep realMath step accept reject = step) ∧
    (trial realMath logLstar w).step
      = refineStep realMath w.step (trial realMath logLstar w).accept
          (trial realMath logLstar w).reject ∧
    (0 < w.step → 0 < (trial realMath logLstar w).step) := by
  have href : ∀ (st : ℝ) (a r : ℕ), 0 < st → 0 < refineStep realMath st a r := by
    intro st a r hst
    unfold refineStep realMath
    simp only []
    split <;> split <;> positivity
  have htrial : ∀ v : Walk ℝ, 0 < v.step → 0 < (trial realMath logLstar v).step := by
    intro v hv
    unfold trial
    simp only []
    split <;> exact href _ _ _ hv
  have hloop : ∀ (k : ℕ) (v : Walk ℝ), 0 < v.step →
      0 < (exploreLoop realMath logLstar k v).step := by
    intro k
    induction k with
    | zero => intro v hv; exact hv
    | succ k ih => intro v hv; unfold exploreLoop; exact ih _ (htrial v hv)
  refine ⟨hloop m _ (by norm_num), ?_, ?_, ?_, ?_, htrial w⟩
  · intro h
    unfold refineStep realMath
    simp only []
    rw [if_pos h, if_neg (by omega)]
    norm_num
  · intro h
    unfold refineStep realMath
    simp only []
    rw [if_pos h, if_neg (by omega)]
    norm_num
  · intro h
    unfold refineStep
    simp only []
    rw [if_neg (by omega), if_neg (by omega)]
  · unfold trial
    simp only []
    split <;> rfl

end Lighthouse

/-! ### The likelihood and its documentation -/

namespace Lighthouse
open Mininest

theorem log_list_prod_pos (l : List ℝ) (h : ℝ → ℝ) (hpos : ∀ d ∈ l, 0 < h d) :
    0 < (l.map h).prod ∧ Real.log (l.map h).prod = (l.map (fun d => Real.log (h d))).sum := by
  induction l with
  | nil => simp
  | cons a l ih =>
    obtain ⟨hp, hl⟩ := ih (fun d hd => hpos d (List.mem_cons_of_mem _ hd))
    have ha := hpos a (List.mem_cons_self _ _)
    simp only [List.map_cons, List.prod_cons, List.sum_cons]
    exact ⟨mul_pos ha hp, by rw [Real.log_mul ha.ne' hp.ne', hl]⟩

theorem sum_map_sub_const (l : List ℝ) (f g : ℝ → ℝ) (c : ℝ) (h : ∀ d ∈ l, f d = g d - c) :
    (l.map f).sum = (l.map g).sum - (l.length : ℝ) * c := by
  induction l with
  | nil => simp
  | cons a l ih =>
    have := ih (fun d hd => h d (List.mem_cons_of_mem _ hd))
    simp only [List.map_cons, List.sum_cons, List.length_cons, Nat.cast_add, Nat.cast_one]
    rw [this, h a (List.mem_cons_self _ _)]
    ring

theorem logLhood_eq_documented_sub (x y : ℝ) (hy : 0 < y) :
    0 < documentedLikelihood x y ∧
    Real.log (documentedLikelihood x y)
      = ((D : List ℝ).map (fun d => Real.log ((y / Real.pi) / ((d - x) ^ 2 + y ^ 2)))).sum ∧
    logLhood realMath x y
      = Real.log (documentedLikelihood x y) - 64 * Real.log (3.1416 / Real.pi) := by
  have hden : ∀ d : ℝ, 0 < (d - x) ^ 2 + y ^ 2 := fun d => by positivity
  have hterm : ∀ d ∈ (D : List ℝ), 0 < (y / Real.pi) / ((d - x) ^ 2 + y ^ 2) :=
    fun d _ => div_pos (div_pos hy Real.pi_pos) (hden d)
  obtain ⟨hpos, hlog⟩ := log_list_prod_pos (D : List ℝ)
    (fun d => (y / Real.pi) / ((d - x) ^ 2 + y ^ 2)) hterm
  refine ⟨hpos, hlog, ?_⟩
  have hlen : (((D : List ℝ).length : ℕ) : ℝ) = 64 := by simp [D]
  unfold documentedLikelihood
  rw [hlog, logLhood_eq_sum, ← hlen]
  apply sum_map_sub_const
  intro d _
  have h1 : (y / 3.1416) / ((d - x) * (d - x) + y * y)
      = ((y / Real.pi) / ((d - x) ^ 2 + y ^ 2)) / (3.1416 / Real.pi) := by
    have hpi := Real.pi_pos
    have hd := hden d
    have hsq : (d - x) * (d - x) + y * y = (d - x) ^ 2 + y ^ 2 := by ring
    rw [hsq]
    field_simp
    ring
  show Real.log ((y / 3.1416) / ((d - x) * (d - x) + y * y)) = _
  rw [h1, Real.log_div (hterm d ‹_›).ne' (by positivity)]

theorem log_approx_pi_pos : 0 < Real.log (3.1416 / Real.pi) := by
  apply Real.log_pos
  rw [lt_div_iff₀ Real.pi_pos, one_mul]
  have := Real.pi_lt_d6
  linarith

/-- C16: at `x = 0`, `y = 1` the value of `logLhood` is not the logarithm of the
documented likelihood: it is less by `64 * log (3.1416 / pi)`, because the code divides
`y` by `3.1416` where the documentation has `pi`. -/
theorem logLhood_below_documented :
    Real.log (documentedLikelihood 0 1)
      = ((D : List ℝ).map (fun d => Real.log ((1 / Real.pi) / ((d - 0) ^ 2 + 1 ^ 2)))).sum ∧
    logLhood realMath 0 1
      = Real.log (documentedLikelihood 0 1) - 64 * Real.log (3.1416 / Real.pi) ∧
    logLhood realMath 0 1 < Real.log (documentedLikelihood 0 1) := by
  obtain ⟨_, h1, h2⟩ := logLhood_eq_documented_sub 0 1 (by norm_num)
  refine ⟨h1, h2, ?_⟩
  rw [h2]
  have := log_approx_pi_pos
  linarith

end Lighthouse

/-! ### Evidence, information and the floor along a run -/

namespace Mininest
open Lighthouse

section accumulation
variable {α : Type}

theorem exp_plus_real (x y : ℝ) :
    Real.exp (plus realMath x y) = Real.exp x + Real.exp y := by
  rw [plus_real, Real.exp_log (by positivity)]

theorem loop_exp_logZ (O : Object ℝ α) (n fuel : ℕ) :
    ∀ (k : ℕ) (s sk : State ℝ α) (rs : List (Result ℝ)),
      loop realMath O n fuel k s = .ok (sk, rs) →
      Real.exp sk.logZ = Real.exp s.logZ + (rs.map (fun r => Real.exp r.LogWt)).sum := by
  intro k
  induction k with
  | zero =>
    intro s sk rs h
    simp only [loop, Except.ok.injEq, Prod.mk.injEq] at h
    rw [← h.1, ← h.2]
    simp
  | succ k ih =>
    intro s sk rs h
    obtain ⟨s1, r, rs1, hit, hl, hrs⟩ := loop_succ_ok realMath O n fuel k s sk rs h
    obtain ⟨_, _, hZ, _, _, _, hZ1, _⟩ := iteration_spec realMath O n fuel s s1 r hit
    rw [ih s1 sk rs1 hl, hrs, hZ1, hZ, exp_plus_real]
    simp only [List.map_cons, List.sum_cons]
    ring

/-- C17: the `LogZ` of the `k`-th `Result` of a run (counting from 1) satisfies
`exp LogZ = exp logZ0 + sum of exp LogWt` over the first `k` `Result`s, where `logZ0` is
the initial `logZ`. -/
theorem exp_logZ_accumulates (O : Object ℝ α) (fuel k : ℕ) (Obj : List Ptr) (heap : Ptr → α)
    (next : Ptr) (rng : Rand ℝ) (s2 : State ℝ α) (rs : List (Result ℝ))
    (h : Sampling realMath O fuel (k + 1) Obj heap next rng = .ok (s2, rs)) :
    rs.length = k + 1 ∧
    ∃ r, rs[k]? = some r ∧
      Real.exp r.LogZ = Real.exp (SamplingInit realMath Obj heap next rng).logZ
        + (rs.map (fun r => Real.exp r.LogWt)).sum := by
  unfold Sampling at h
  obtain ⟨sk, rsk, r, hk, hit, hrs⟩ := loop_snoc realMath O Obj.length fuel k _ s2 rs h
  obtain ⟨hlen, _⟩ := loop_length_logwidth realMath O Obj.length fuel k _ sk rsk hk
  obtain ⟨_, _, _, _, _, _, hZ1, _⟩ := iteration_spec realMath O Obj.length fuel sk s2 r hit
  have hsum := loop_exp_logZ O Obj.length fuel (k + 1) _ s2 rs h
  refine ⟨by rw [hrs, List.length_append, hlen]; rfl, r, ?_, ?_⟩
  · rw [hrs, ← hlen]; simp
  · rw [← hZ1]; exact hsum

/-- C19: a pass conserves the weighted sum: with `H`, `logZ` before the pass, `H1`,
`logZ1` after it and `L` the `LogL` of the worst object,
`exp logZ1 * (H1 + logZ1) = exp logZ * (H + logZ) + exp LogWt * L`. -/
theorem weighted_sum_conserved (O : Object ℝ α) (n fuel : ℕ) (s s1 : State ℝ α)
    (r : Result ℝ) (h : iteration realMath O n fuel s = .ok (s1, r)) :
    Real.exp s1.logZ * (s1.H + s1.logZ)
      = Real.exp s.logZ * (s.H + s.logZ)
        + Real.exp r.LogWt * O.LogL (s.heap (s.Obj.getD (findWorst O s.heap s.Obj) 0)) := by
  obtain ⟨_, _, _, hH, _, hH1, hZ1, _⟩ := iteration_spec realMath O n fuel s s1 r h
  have hH2 : r.H = Real.exp (r.LogWt - r.LogZ)
      * O.LogL (s.heap (s.Obj.getD (findWorst O s.heap s.Obj) 0))
      + Real.exp (s.logZ - r.LogZ) * (s.H + s.logZ) - r.LogZ := hH
  rw [hH1, hZ1, hH2, Real.exp_sub, Real.exp_sub]
  have hpos := Real.exp_pos r.LogZ
  field_simp
  ring

end accumulation

section floorMin
variable {F α : Type} [LinearOrderedField F]

theorem findWorst_le_mem (O : Object F α) (heap : Ptr → α) (Obj : List Ptr) (q : Ptr)
    (hq : q ∈ Obj) :
    O.LogL (heap (Obj.getD (findWorst O heap Obj) 0)) ≤ O.LogL (heap q) := by
  obtain ⟨i, hi, hget⟩ := List.getElem_of_mem hq
  have h := (findWorst_spec O heap Obj).2.1 i hi
  have hD : Obj.getD i 0 = q := by
    rw [List.getD_eq_getElem?_getD, List.getElem?_eq_getElem hi, hget]
    rfl
  simp only [logLAt, hD] at h
  exact not_lt.mp h

end floorMin

section floor
variable {F α : Type} [LinearOrderedField F] [FloorRing F]

theorem iteration_floor (M : MathFns F) (O : Object F α) (n fuel : ℕ)
    (s s1 : State F α) (r : Result F)
    (hE : ∀ fl a rng, (O.Explore fl a rng).1 = a ∨ fl < O.LogL (O.Explore fl a rng).1)
    (hwf : ∀ p, p ∈ s.Obj → p < s.next)
    (h : iteration M O n fuel s = .ok (s1, r)) :
    (∀ q, q ∈ s1.Obj →
      O.LogL (s.heap (s.Obj.getD (findWorst O s.heap s.Obj) 0)) ≤ O.LogL (s1.heap q)) ∧
    s1.heap r.Sample = O.Copy (s.heap (s.Obj.getD (findWorst O s.heap s.Obj) 0)) := by
  obtain ⟨hw, _, _, _, hS, _, _, _, _, rng1, hrep, hw1, hheap, _⟩ :=
    iteration_spec M O n fuel s s1 r h
  obtain ⟨_, hsub⟩ := replaceWorst_subset n _ fuel s.Obj s1.Obj s.rng rng1 hrep
  have hfresh : ∀ p, p ∈ s.Obj → p ≠ s.next := fun p hp => Nat.ne_of_lt (hwf p hp)
  have hwne := hfresh _ (getD_mem hw)
  have hpmem := hsub _ (getD_mem hw1)
  have hpne := hfresh _ hpmem
  constructor
  · intro q hq
    have hqmem := hsub q hq
    have hqne := hfresh q hqmem
    by_cases hqp : q = s1.Obj.getD (findWorst O s.heap s.Obj) 0
    · rw [hheap, hqp, Function.update_same, Function.update_noteq hwne,
        Function.update_noteq hpne]
      rcases hE (O.LogL (s.heap (s.Obj.getD (findWorst O s.heap s.Obj) 0)))
        (s.heap (s1.Obj.getD (findWorst O s.heap s.Obj) 0)) rng1 with hsame | habove
      · rw [hsame]
        exact findWorst_le_mem O s.heap s.Obj _ hpmem
      · exact le_of_lt habove
    · rw [hheap, Function.update_noteq hqp, Function.update_noteq hqne]
      exact findWorst_le_mem O s.heap s.Obj q hqmem
  · rw [hheap, hS, Function.update_noteq hpne.symm, Function.update_same]

/-- C18: when `Explore` leaves the object unchanged or ends strictly above the floor,
every slot of the population after a pass holds an object whose `LogL` is at least the
minimum before the pass, so the minimum (the floor of the next pass) does not decrease;
and when `Copy` keeps `LogL`, the `LogL` of a `Sample` is the floor of its pass, so the
`Sample` of the next pass has a `LogL` at least that of this pass. -/
theorem floor_never_decreases (M : MathFns F) (O : Object F α) (n fuel : ℕ)
    (s s1 s2 : State F α) (r1 r2 : Result F)
    (hE : ∀ fl a rng, (O.Explore fl a rng).1 = a ∨ fl < O.LogL (O.Explore fl a rng).1)
    (hwf : ∀ p, p ∈ s.Obj → p < s.next)
    (h1 : iteration M O n fuel s = .ok (s1, r1))
    (h2 : iteration M O n fuel s1 = .ok (s2, r2)) :
    (∀ q, q ∈ s1.Obj →
      O.LogL (s.heap (s.Obj.getD (findWorst O s.heap s.Obj) 0)) ≤ O.LogL (s1.heap q)) ∧
    O.LogL (s.heap (s.Obj.getD (findWorst O s.heap s.Obj) 0))
      ≤ O.LogL (s1.heap (s1.Obj.getD (findWorst O s1.heap s1.Obj) 0)) ∧
    ((∀ a, O.LogL (O.Copy a) = O.LogL a) →
      O.LogL (s1.heap r1.Sample)
        = O.LogL (s.heap (s.Obj.getD (findWorst O s.heap s.Obj) 0)) ∧
      O.LogL (s2.heap r1.Sample) ≤ O.LogL (s2.heap r2.Sample)) := by
  obtain ⟨ha, hs1⟩ := iteration_floor M O n fuel s s1 r1 hE hwf h1
  obtain ⟨hwf1, hsub1, hnext1, _⟩ := iteration_frame M O n fuel s s1 r1 hwf h1
  obtain ⟨_, hs2⟩ := iteration_floor M O n fuel s1 s2 r2 hE hwf1 h2
  obtain ⟨_, hsub2, _, hfr2⟩ := iteration_frame M O n fuel s1 s2 r2 hwf1 h2
  obtain ⟨_, _, _, _, hS1, _⟩ := iteration_spec M O n fuel s s1 r1 h1
  obtain ⟨hw2, _⟩ := iteration_spec M O n fuel s1 s2 r2 h2
  have hb := ha _ (getD_mem hw2)
  refine ⟨ha, hb, fun hC => ?_⟩
  have hc : O.LogL (s1.heap r1.Sample)
      = O.LogL (s.heap (s.Obj.getD (findWorst O s.heap s.Obj) 0)) := by
    rw [hs1, hC]
  refine ⟨hc, ?_⟩
  have hne : r1.Sample ≠ s1.next := by
    rw [hS1, hnext1]; exact Nat.ne_of_lt (Nat.lt_succ_self _)
  have hnot : r1.Sample ∉ s2.Obj := by
    intro hmem
    have := hwf _ (hsub1 _ (hsub2 _ hmem))
    rw [hS1] at this
    exact absurd this (Nat.lt_irrefl _)
  rw [hfr2 r1.Sample hne hnot, hc, hs2, hC]
  exact hb

end floor

end Mininest

namespace Mininest
open Lighthouse

theorem impl_explore_unchanged_or_above {F : Type} [LinearOrderedField F] [FloorRing F]
    (M : MathFns F) (fl : F) (a : Lighthouse.Object F) (rng : Rand F) :
    ((impl M).Explore fl a rng).1 = a ∨ fl < (impl M).LogL ((impl M).Explore fl a rng).1 :=
  exploreLoop_unchanged_or_above M fl a 20 _ (Or.inl rfl)

theorem example_wf :
    ∀ p, p ∈ (exampleState realMath).Obj → p < (exampleState realMath).next := by
  intro p hp
  simp only [exampleState, SamplingInit, List.mem_cons, List.mem_singleton,
    List.not_mem_nil, or_false] at hp ⊢
  rcases hp with h | h <;> rw [h] <;> decide

theorem exp_logZ_accumulates_witness :
    ∃ s2 rs, Sampling realMath (impl realMath) 1 (1 + 1) [0, 1] (exampleHeap realMath) 2
        (exampleRand : Rand ℝ) = .ok (s2, rs) ∧
      rs.length = 1 + 1 ∧
      ∃ r, rs[1]? = some r ∧
        Real.exp r.LogZ
          = Real.exp (SamplingInit realMath [0, 1] (exampleHeap realMath) 2
              (exampleRand : Rand ℝ)).logZ
            + (rs.map (fun r => Real.exp r.LogWt)).sum := by
  obtain ⟨s2, rs, h⟩ := example_two_passes
  exact ⟨s2, rs, h,
    exp_logZ_accumulates (impl realMath) 1 1 [0, 1] (exampleHeap realMath) 2 exampleRand s2 rs h⟩

theorem weighted_sum_conserved_witness :
    ∃ s1 r, iteration realMath (impl realMath) 2 1 (exampleState realMath) = .ok (s1, r) ∧
      Real.exp s1.logZ * (s1.H + s1.logZ)
        = Real.exp (exampleState realMath).logZ
            * ((exampleState realMath).H + (exampleState realMath).logZ)
          + Real.exp r.LogWt * (impl realMath).LogL ((exampleState realMath).heap
              ((exampleState realMath).Obj.getD (findWorst (impl realMath)
                (exampleState realMath).heap (exampleState realMath).Obj) 0)) := by
  obtain ⟨s1, r, h, _⟩ := example_iteration
  exact ⟨s1, r, h, weighted_sum_conserved (impl realMath) 2 1 (exampleState realMath) s1 r h⟩

theorem floor_never_decreases_witness :
    (∀ p, p ∈ (exampleState realMath).Obj → p < (exampleState realMath).next) ∧
    ∃ s1 r1 s2 r2,
      iteration realMath (impl realMath) 2 1 (exampleState realMath) = .ok (s1, r1) ∧
      iteration realMath (impl realMath) 2 1 s1 = .ok (s2, r2) ∧
      (impl realMath).LogL ((exampleState realMath).heap ((exampleState realMath).Obj.getD
          (findWorst (impl realMath) (exampleState realMath).heap
            (exampleState realMath).Obj) 0))
        ≤ (impl realMath).LogL (s1.heap (s1.Obj.getD
            (findWorst (impl realMath) s1.heap s1.Obj) 0)) ∧
      (impl realMath).LogL (s2.heap r1.Sample) ≤ (impl realMath).LogL (s2.heap r2.Sample) := by
  obtain ⟨s2, rs, h⟩ := example_two_passes
  unfold Sampling at h
  obtain ⟨s1, r1, rs1, h1, hl, _⟩ := loop_succ_ok _ _ _ _ _ _ _ _ h
  obtain ⟨s3, r2, rs2, h2, hl2, _⟩ := loop_succ_ok _ _ _ _ _ _ _ _ hl
  simp only [loop, Except.ok.injEq, Prod.mk.injEq] at hl2
  rw [hl2.1] at h2
  have hc := floor_never_decreases realMath (impl realMath) 2 1 (exampleState realMath) s1 s2
    r1 r2 (impl_explore_unchanged_or_above realMath) example_wf h1 h2
  exact ⟨example_wf, s1, r1, s2, r2, h1, h2, hc.2.1, (hc.2.2 (fun _ => rfl)).2⟩

end Mininest

/-! ### The first pass and the underflow of `math.Exp` -/

namespace Lighthouse
open Mininest

theorem D_near (d : ℝ) (hd : d ∈ (D : List ℝ)) : (d - (-1.2)) * (d - (-1.2)) ≤ (3136 : ℝ) := by
  simp only [D, List.mem_cons, List.mem_singleton, List.not_mem_nil, or_false] at hd
  rcases hd with h | h | h | h | h | h | h | h | h | h | h | h | h | h | h | h | h | h | h | h | h | h | h | h | h | h | h | h | h | h | h | h | h | h | h | h | h | h | h | h | h | h | h | h | h | h | h | h | h | h | h | h | h | h | h | h | h | h | h | h | h | h | h | h <;> (rw [h]; norm_num)

theorem sum_map_ge (l : List ℝ) (f : ℝ → ℝ) (c : ℝ) (h : ∀ d ∈ l, c ≤ f d) :
    (l.length : ℝ) * c ≤ (l.map f).sum := by
  induction l with
  | nil => simp
  | cons a l ih =>
    have := ih (fun d hd => h d (List.mem_cons_of_mem _ hd))
    have ha := h a (List.mem_cons_self _ _)
    simp only [List.map_cons, List.sum_cons, List.length_cons, Nat.cast_add, Nat.cast_one]
    linarith

theorem logLhood_underflow_ge (x y c : ℝ) (hy : 0 < y)
    (hc : ∀ d ∈ (D : List ℝ), 3.1416 * ((d - x) * (d - x) + y * y) ≤ c * y) :
    -(64 * c) ≤ logLhood underflowMath x y := by
  rw [logLhood_eq_sum]
  have hlen : (((D : List ℝ).length : ℕ) : ℝ) = 64 := by simp [D]
  have := sum_map_ge (D : List ℝ)
    (fun d => underflowMath.Log ((y / 3.1416) / ((d - x) * (d - x) + y * y))) (-c) ?_
  · rw [hlen] at this
    linarith
  · intro d hd
    have hden : 0 < (d - x) * (d - x) + y * y := by
      nlinarith [mul_self_nonneg (d - x), mul_pos hy hy]
    have ht : 0 < (y / 3.1416) / ((d - x) * (d - x) + y * y) :=
      div_pos (div_pos hy (by norm_num)) hden
    have hlog := Real.one_sub_inv_le_log_of_pos ht
    have hinv : ((y / 3.1416) / ((d - x) * (d - x) + y * y))⁻¹ ≤ c := by
      rw [inv_div, div_div_eq_mul_div, div_le_iff₀ hy]
      have := hc d hd
      linarith
    show -c ≤ Real.log ((y / 3.1416) / ((d - x) * (d - x) + y * y))
    linarith

theorem exampleHeap_logL_ge (p : Ptr) :
    -(64000000 : ℝ) ≤ (exampleHeap underflowMath p).logL := by
  have hx : (4.0 * 0.2 - 2.0 : ℝ) = -1.2 := by norm_num
  unfold exampleHeap
  split
  · rw [sampled_eq]
    simp only [hx]
    have := logLhood_underflow_ge (-1.2) (2.0 * 0.005) 1000000 (by norm_num) (fun d hd => by
      have := D_near d hd
      norm_num at this ⊢
      linarith)
    linarith
  · rw [sampled_eq]
    simp only [hx]
    have := logLhood_underflow_ge (-1.2) (2.0 * 0.5) 1000000 (by norm_num) (fun d hd => by
      have := D_near d hd
      norm_num at this ⊢
      linarith)
    linarith

theorem example_logwidth_ge :
    -(2 : ℝ) ≤ underflowMath.Log (1 - underflowMath.Exp (-1 / ((2 : ℕ) : ℝ))) := by
  have hE : underflowMath.Exp (-1 / ((2 : ℕ) : ℝ)) = Real.exp (-(1 / 2)) := by
    simp only [underflowMath]
    rw [if_neg (by norm_num)]
    norm_num
  rw [hE]
  have h1 : Real.exp (-(1 / 2 : ℝ)) ≤ 2 / 3 := by
    rw [Real.exp_neg, inv_le_comm₀ (Real.exp_pos _) (by norm_num)]
    have := Real.add_one_le_exp (1 / 2 : ℝ)
    norm_num at this ⊢
    linarith
  have h2 : (0 : ℝ) < 1 - Real.exp (-(1 / 2 : ℝ)) := by linarith
  have h3 := Real.one_sub_inv_le_log_of_pos h2
  have h4 : (1 - Real.exp (-(1 / 2 : ℝ)))⁻¹ ≤ 3 := by
    rw [inv_le_comm₀ h2 (by norm_num)]
    norm_num
    linarith
  show -(2 : ℝ) ≤ Real.log (1 - Real.exp (-(1 / 2 : ℝ)))
  linarith

theorem example_aCopy_half : aCopyOf 2 (0.5 : ℝ) = 1 := by
  unfold aCopyOf goInt
  norm_num
  decide

theorem example_first_pass_underflow :
    ∃ s1 r, iteration underflowMath (impl underflowMath) 2 2
        (SamplingInit underflowMath [0, 1] (exampleHeap underflowMath) 2
          (exampleRand : Mininest.Rand ℝ)) = .ok (s1, r) ∧
      -MaxFloat64 + 745.14 < r.LogWt := by
  obtain ⟨s1, r, h⟩ := iteration_ok underflowMath (impl underflowMath) 2
    (SamplingInit underflowMath [0, 1] (exampleHeap underflowMath) 2
      (exampleRand : Mininest.Rand ℝ))
    (by simp [SamplingInit]) (fun _ i => example_valid i)
    (fun _ => by
      by_cases hw : findWorst (impl underflowMath)
          (SamplingInit underflowMath [0, 1] (exampleHeap underflowMath) 2
            (exampleRand : Mininest.Rand ℝ)).heap
          (SamplingInit underflowMath [0, 1] (exampleHeap underflowMath) 2
            (exampleRand : Mininest.Rand ℝ)).Obj = 0
      · refine ⟨1, by omega, ?_⟩
        rw [hw]
        have hd : (exampleRand : Mininest.Rand ℝ).draws (0 + 1) = 0.5 := by
          simp [exampleRand]
        show aCopyOf 2 ((exampleRand : Mininest.Rand ℝ).draws (0 + 1)) ≠ ((0 : ℕ) : ℤ)
        rw [hd, example_aCopy_half]
        decide
      · refine ⟨0, by omega, ?_⟩
        have hd : (exampleRand : Mininest.Rand ℝ).draws (0 + 0) = 0.25 := by
          simp [exampleRand]
        show aCopyOf 2 ((exampleRand : Mininest.Rand ℝ).draws (0 + 0)) ≠ _
        rw [hd, example_aCopy]
        intro hcon
        apply hw
        exact_mod_cast hcon.symm)
  refine ⟨s1, r, h, ?_⟩
  obtain ⟨_, hWt, _⟩ := iteration_spec _ _ _ _ _ s1 r h
  rw [hWt]
  have h1 := example_logwidth_ge
  have h2 := exampleHeap_logL_ge
    ((SamplingInit underflowMath [0, 1] (exampleHeap underflowMath) 2
        (exampleRand : Mininest.Rand ℝ)).Obj.getD
      (findWorst (impl underflowMath)
        (SamplingInit underflowMath [0, 1] (exampleHeap underflowMath) 2
          (exampleRand : Mininest.Rand ℝ)).heap
        (SamplingInit underflowMath [0, 1] (exampleHeap underflowMath) 2
          (exampleRand : Mininest.Rand ℝ)).Obj) 0)
  have h3 : (SamplingInit underflowMath [0, 1] (exampleHeap underflowMath) 2
      (exampleRand : Mininest.Rand ℝ)).logwidth
      = underflowMath.Log (1 - underflowMath.Exp (-1 / ((2 : ℕ) : ℝ))) := rfl
  have h4 : (impl underflowMath).LogL
      ((SamplingInit underflowMath [0, 1] (exampleHeap underflowMath) 2
        (exampleRand : Mininest.Rand ℝ)).heap
      ((SamplingInit underflowMath [0, 1] (exampleHeap underflowMath) 2
        (exampleRand : Mininest.Rand ℝ)).Obj.getD
      (findWorst (impl underflowMath)
        (SamplingInit underflowMath [0, 1] (exampleHeap underflowMath) 2
          (exampleRand : Mininest.Rand ℝ)).heap
        (SamplingInit underflowMath [0, 1] (exampleHeap underflowMath) 2
          (exampleRand : Mininest.Rand ℝ)).Obj) 0))
      = (exampleHeap underflowMath
      ((SamplingInit underflowMath [0, 1] (exampleHeap underflowMath) 2
        (exampleRand : Mininest.Rand ℝ)).Obj.getD
      (findWorst (impl underflowMath)
        (SamplingInit underflowMath [0, 1] (exampleHeap underflowMath) 2
          (exampleRand : Mininest.Rand ℝ)).heap
        (SamplingInit underflowMath [0, 1] (exampleHeap underflowMath) 2
          (exampleRand : Mininest.Rand ℝ)).Obj) 0)).logL := rfl
  rw [h3, h4]
  have h5 : -(MaxFloat64 : ℝ) + 745.14 < -2 + -64000000 := by
    unfold MaxFloat64
    norm_num
  linarith

end Lighthouse

namespace Mininest
open Lighthouse

section firstPass
variable {F α : Type} [LinearOrderedField F] [FloorRing F]

/-- C6, as stated, fails: the initial `logZ` is `-math.MaxFloat64`, that is
`-(2^1024 - 2^971)`: a finite number, not below the least finite `float64` as `-∞` is,
and one to which `math.MaxFloat64` can be added to give `0`. -/
theorem initial_logZ_not_neg_infinity :
    (exampleState underflowMath).logZ = -(2 ^ 1024 - 2 ^ 971) ∧
    ¬ (exampleState underflowMath).logZ < -MaxFloat64 ∧
    (exampleState underflowMath).logZ + MaxFloat64 = 0 := by
  have h : (exampleState underflowMath).logZ = -MaxFloat64 := rfl
  refine ⟨rfl, ?_, ?_⟩
  · rw [h]; exact lt_irrefl _
  · rw [h]; ring

/-- C6, amended: `Sampling` starts with `H = 0` and `logZ = -math.MaxFloat64`; with a
`math.Exp` that underflows to `0` below `-745.14` the evidence is initially 0
(`exp` of the initial `logZ` is `0`), and the `LogZ` of the first `Result` equals its
`LogWt`, for a `LogWt` more than `745.14` above `-math.MaxFloat64`. -/
theorem first_logZ_eq_logWt (M : MathFns F) (O : Object F α) (n fuel : ℕ) (Obj : List Ptr)
    (heap : Ptr → α) (next : Ptr) (rng : Rand F) (s1 : State F α) (r : Result F)
    (hExp : ∀ t : F, t < -745.14 → M.Exp t = 0) (hLog : M.Log 1 = 0)
    (h : iteration M O n fuel (SamplingInit M Obj heap next rng) = .ok (s1, r))
    (hWt : -MaxFloat64 + 745.14 < r.LogWt) :
    (SamplingInit M Obj heap next rng).H = 0 ∧
    (SamplingInit M Obj heap next rng).logZ = -MaxFloat64 ∧
    M.Exp (SamplingInit M Obj heap next rng).logZ = 0 ∧
    r.LogZ = r.LogWt := by
  have hmax : (745.14 : F) < MaxFloat64 := by
    unfold MaxFloat64
    norm_num
  obtain ⟨_, _, hZ, _⟩ := iteration_spec M O n fuel _ s1 r h
  have hZ0 : r.LogZ = plus M (-MaxFloat64) r.LogWt := hZ
  refine ⟨rfl, rfl, ?_, ?_⟩
  · show M.Exp (-MaxFloat64) = 0
    exact hExp _ (by linarith)
  · rw [hZ0]
    unfold plus
    have hpos : (0 : F) < 745.14 := by norm_num
    rw [if_neg (by linarith), hExp _ (by linarith), add_zero, hLog, add_zero]

theorem first_logZ_eq_logWt_witness :
    (∀ t : ℝ, t < -745.14 → underflowMath.Exp t = 0) ∧ underflowMath.Log 1 = 0 ∧
    ∃ s1 r, iteration underflowMath (impl underflowMath) 2 2
        (SamplingInit underflowMath [0, 1] (exampleHeap underflowMath) 2
          (exampleRand : Rand ℝ)) = .ok (s1, r) ∧
      -MaxFloat64 + 745.14 < r.LogWt ∧
      underflowMath.Exp (SamplingInit underflowMath [0, 1] (exampleHeap underflowMath) 2
          (exampleRand : Rand ℝ)).logZ = 0 ∧
      r.LogZ = r.LogWt := by
  have hExp : ∀ t : ℝ, t < -745.14 → underflowMath.Exp t = 0 := by
    intro t ht
    simp only [underflowMath]
    rw [if_pos ht]
  have hLog : underflowMath.Log 1 = 0 := Real.log_one
  obtain ⟨s1, r, h, hWt⟩ := example_first_pass_underflow
  have hc := first_logZ_eq_logWt underflowMath (impl underflowMath) 2 2 [0, 1]
    (exampleHeap underflowMath) 2 exampleRand s1 r hExp hLog h hWt
  exact ⟨hExp, hLog, s1, r, h, hWt, hc.2.2.1, hc.2.2.2⟩

end firstPass

end Mininest

/-! ### The wrap of the trial coordinate in `float64` arithmetic -/

namespace Lighthouse
open Mininest

theorem log2_eq (a : ℚ) (e : ℤ) (h1 : (2 : ℚ) ^ e ≤ a) (h2 : a < (2 : ℚ) ^ (e + 1)) :
    Int.log 2 a = e := by
  have ha : 0 < a := lt_of_lt_of_le (by positivity) h1
  have h3 := (Int.zpow_le_iff_le_log (R := ℚ) (b := 2) (by norm_num) ha).mp
    (by exact_mod_cast h1)
  have h4 := (Int.lt_zpow_iff_log_lt (R := ℚ) (b := 2) (by norm_num) ha).mp
    (by exact_mod_cast h2)
  omega

theorem round64_tenth : round64 (1 / 10) = 3602879701896397 / 36028797018963968 := by
  have hlog : Int.log 2 |(1 / 10 : ℚ)| = -4 :=
    log2_eq _ _ (by norm_num [abs_of_pos]) (by norm_num [abs_of_pos])
  unfold round64
  rw [if_neg (by norm_num)]
  simp only [hlog]
  norm_num [abs_of_pos]

theorem round64_two_r :
    round64 (2 * (4503599627370495 / 9007199254740992))
      = 4503599627370495 / 4503599627370496 := by
  have hlog : Int.log 2 |(2 * (4503599627370495 / 9007199254740992) : ℚ)| = -1 :=
    log2_eq _ _ (by norm_num [abs_of_pos]) (by norm_num [abs_of_pos])
  unfold round64
  rw [if_neg (by norm_num)]
  simp only [hlog]
  norm_num [abs_of_pos]

theorem round64_offset :
    round64 (4503599627370495 / 4503599627370496 - 1) = -(1 / 4503599627370496) := by
  have hx : (4503599627370495 / 4503599627370496 - 1 : ℚ) = -(1 / 4503599627370496) := by
    norm_num
  have hlog : Int.log 2 |(-(1 / 4503599627370496) : ℚ)| = -52 :=
    log2_eq _ _ (by norm_num [abs_of_pos]) (by norm_num [abs_of_pos])
  rw [hx]
  unfold round64
  rw [if_neg (by norm_num)]
  simp only [hlog]
  norm_num [abs_of_pos]

theorem round64_small :
    round64 (-(3602879701896397 / 162259276829213363391578010288128))
      = -(3602879701896397 / 162259276829213363391578010288128) := by
  have hlog : Int.log 2 |(-(3602879701896397 / 162259276829213363391578010288128) : ℚ)|
      = -56 :=
    log2_eq _ _ (by norm_num [abs_of_pos]) (by norm_num [abs_of_pos])
  unfold round64
  rw [if_neg (by norm_num)]
  simp only [hlog]
  norm_num [abs_of_pos]

theorem round64_move :
    round64 (3602879701896397 / 36028797018963968 * -(1 / 4503599627370496))
      = -(3602879701896397 / 162259276829213363391578010288128) := by
  have hx : (3602879701896397 / 36028797018963968 * -(1 / 4503599627370496) : ℚ)
      = -(3602879701896397 / 162259276829213363391578010288128) := by norm_num
  rw [hx, round64_small]

theorem round64_wrap :
    round64 (-(3602879701896397 / 162259276829213363391578010288128) - (-1 : ℤ)) = 1 := by
  have hx : (-(3602879701896397 / 162259276829213363391578010288128) - ((-1 : ℤ) : ℚ) : ℚ)
      = 162259276829213359788698308391731 / 162259276829213363391578010288128 := by
    norm_num
  have hlog : Int.log 2
      |(162259276829213359788698308391731 / 162259276829213363391578010288128 : ℚ)| = -1 :=
    log2_eq _ _ (by norm_num [abs_of_pos]) (by norm_num [abs_of_pos])
  rw [hx]
  unfold round64
  rw [if_neg (by norm_num)]
  simp only [hlog]
  norm_num [abs_of_pos]

theorem tryU64_example :
    tryU64 0 (round64 (1 / 10)) (4503599627370495 / 9007199254740992) = 1 := by
  have hfloor : ⌊(-(3602879701896397 / 162259276829213363391578010288128) : ℚ)⌋ = -1 := by
    norm_num
  unfold tryU64
  simp only [round64_tenth, round64_two_r, round64_offset, round64_move, zero_add,
    round64_small, hfloor]
  exact round64_wrap

/-- C12: in `float64` arithmetic, with `Obj.u = 0`, `step = 0.1` and the draw
`0.5 - 2^-53` (all of them values the program meets, the draw in `[0, 1)`), the wrapped
trial coordinate `Try.u` is exactly `1`: it is not below `1`. -/
theorem wrap_reaches_one :
    (0 ≤ (4503599627370495 / 9007199254740992 : ℚ) ∧
      (4503599627370495 / 9007199254740992 : ℚ) < 1) ∧
    (4503599627370495 / 9007199254740992 : ℚ) = 1 / 2 - 1 / 2 ^ 53 ∧
    round64 (1 / 10) = 3602879701896397 / 36028797018963968 ∧
    tryU64 0 (round64 (1 / 10)) (4503599627370495 / 9007199254740992) = 1 ∧
    ¬ tryU64 0 (round64 (1 / 10)) (4503599627370495 / 9007199254740992) < 1 := by
  refine ⟨by norm_num, by norm_num, round64_tenth, tryU64_example, ?_⟩
  rw [tryU64_example]
  exact lt_irrefl _

end Lighthouse
